import Mathlib

/-!
Verification of the reachability-driven lifecycle model of the
data-information-lifecycle editor.

The definitions below are a shallow embedding of the TypeScript source
(`src/src/App.tsx` and the unnamed iterations `src/unnamed/part_00x`).
Conventions of the embedding:

* An active edge is identified in the source by the string key
  `source ++ "->" ++ target`, recovered by splitting on `"->"`.  Catalog
  node ids never contain the substring `"->"`, so a key is in bijection
  with its `(source, target)` pair; we represent keys directly as pairs
  (`EdgeKey`).  Under that convention `key.startsWith(nodeId + "->")`
  is source equality and `key.split("->")` is the pair itself.
* A JavaScript `Set` is represented as a `List` in insertion order with
  duplicate inserts ignored (`jsInsert` / `jsSetOfList`); a plain object
  used as a string-keyed record is an association list updated in place
  (`recSet` / `recGet`).
* JavaScript string truthiness: `x || y` on strings is `jsOr`; an
  optional string field (`string | undefined`) is an `Option String`.
* Fallible operations return `Option` / are modelled as returning the
  unchanged state together with the collected error list.
-/

/-- Single quote character, used when building user-facing messages. -/
def quoteS : String := String.mk [Char.ofNat 39]

/-- JavaScript `a || b` on strings: `b` exactly when `a` is empty (falsy). -/
def jsOr (a b : String) : String := if a = "" then b else a

/-- JavaScript `Set.add`: append unless already present. -/
def jsInsert {α : Type} [DecidableEq α] (l : List α) (x : α) : List α :=
  if x ∈ l then l else l ++ [x]

/-- JavaScript `new Set(list)`: insertion-ordered deduplication. -/
def jsSetOfList {α : Type} [DecidableEq α] (l : List α) : List α :=
  l.foldl jsInsert []

/-- Assignment `obj[k] = v` on a string-keyed record kept as an
association list in key-insertion order. -/
def recSet (l : List (String × String)) (k v : String) : List (String × String) :=
  match l with
  | [] => [(k, v)]
  | (k', v') :: rest => if k' = k then (k, v) :: rest else (k', v') :: recSet rest k v

/-- Lookup `obj[k]` on a string-keyed record. -/
def recGet (l : List (String × String)) (k : String) : Option String :=
  match l with
  | [] => none
  | (k', v) :: rest => if k' = k then some v else recGet rest k

/-- An active-edge key: the `(source, target)` pair behind the string key
`source ++ "->" ++ target` used in the source. -/
abbrev EdgeKey : Type := String × String

-- ---------------------------------------------------------------------------
-- Reachability engine (App.tsx, `bfsReachable`, lines 490-504)
-- ---------------------------------------------------------------------------

/-- Inner loop of one BFS step: scan the active-edge set in order and
collect targets of edges leaving `u` that are not yet seen; the `seen`
set grows as targets are collected, exactly as the source mutates `seen`
inside the `for (const key of edgesSet)` loop. -/
def bfsExpand (edgesSet : List EdgeKey) (u : String) (seen : List String) : List String :=
  match edgesSet with
  | [] => []
  | (s, t) :: rest =>
    if s = u ∧ t ∉ seen then t :: bfsExpand rest u (t :: seen)
    else bfsExpand rest u seen

theorem bfsExpand_mem_target {edgesSet : List EdgeKey} {u : String} {seen : List String}
    {x : String} (h : x ∈ bfsExpand edgesSet u seen) : (u, x) ∈ edgesSet := by
  induction edgesSet generalizing seen with
  | nil => simp [bfsExpand] at h
  | cons e rest ih =>
    obtain ⟨s, t⟩ := e
    simp only [bfsExpand] at h
    split at h
    · rename_i hc
      rcases List.mem_cons.mp h with rfl | h'
      · exact List.mem_cons.mpr (Or.inl (by rw [hc.1]))
      · exact List.mem_cons.mpr (Or.inr (ih h'))
    · exact List.mem_cons.mpr (Or.inr (ih h))

theorem bfsExpand_not_mem_seen {edgesSet : List EdgeKey} {u : String} {seen : List String}
    {x : String} (h : x ∈ bfsExpand edgesSet u seen) : x ∉ seen := by
  induction edgesSet generalizing seen with
  | nil => simp [bfsExpand] at h
  | cons e rest ih =>
    obtain ⟨s, t⟩ := e
    simp only [bfsExpand] at h
    split at h
    · rename_i hc
      rcases List.mem_cons.mp h with rfl | h'
      · exact hc.2
      · intro hx
        exact ih h' (List.mem_cons.mpr (Or.inr hx))
    · exact ih h

theorem bfsExpand_nodup (edgesSet : List EdgeKey) (u : String) (seen : List String) :
    (bfsExpand edgesSet u seen).Nodup := by
  induction edgesSet generalizing seen with
  | nil => simp [bfsExpand]
  | cons e rest ih =>
    obtain ⟨s, t⟩ := e
    simp only [bfsExpand]
    split
    · refine List.nodup_cons.mpr ⟨?_, ih _⟩
      intro hmem
      exact bfsExpand_not_mem_seen hmem (List.mem_cons.mpr (Or.inl rfl))
    · exact ih _

theorem bfsExpand_complete {edgesSet : List EdgeKey} {u t : String} (seen : List String)
    (h : (u, t) ∈ edgesSet) : t ∈ seen ∨ t ∈ bfsExpand edgesSet u seen := by
  induction edgesSet generalizing seen with
  | nil => simp at h
  | cons e rest ih =>
    obtain ⟨s', t'⟩ := e
    rcases List.mem_cons.mp h with he | h'
    · obtain ⟨hs, ht⟩ := Prod.mk.injEq u t s' t' ▸ he
      simp only [bfsExpand]
      by_cases hmem : t' ∈ seen
      · exact Or.inl (ht ▸ hmem)
      · rw [if_pos ⟨hs.symm, hmem⟩]
        exact Or.inr (List.mem_cons.mpr (Or.inl ht))
    · simp only [bfsExpand]
      split
      · rcases ih (t' :: seen) h' with hs | hb
        · rcases List.mem_cons.mp hs with rfl | hs'
          · exact Or.inr (List.mem_cons.mpr (Or.inl rfl))
          · exact Or.inl hs'
        · exact Or.inr (List.mem_cons.mpr (Or.inr hb))
      · exact ih seen h'

/-- Target universe of an edge set, used only as a termination measure. -/
def bfsTargets (edgesSet : List EdgeKey) : Finset String :=
  (edgesSet.map Prod.snd).toFinset

theorem bfsExpand_subset_targets {edgesSet : List EdgeKey} {u : String} {seen : List String}
    {x : String} (h : x ∈ bfsExpand edgesSet u seen) : x ∈ bfsTargets edgesSet := by
  have := bfsExpand_mem_target h
  simp only [bfsTargets, List.mem_toFinset, List.mem_map]
  exact ⟨(u, x), this, rfl⟩

theorem bfs_measure_key (edgesSet : List EdgeKey) (u : String) (seen : List String) :
    (bfsTargets edgesSet \ (seen ++ bfsExpand edgesSet u seen).toFinset).card
      + (bfsExpand edgesSet u seen).length
      ≤ (bfsTargets edgesSet \ seen.toFinset).card := by
  set T := bfsTargets edgesSet with hT
  set new := bfsExpand edgesSet u seen with hnew
  have hsub : new.toFinset ⊆ T \ seen.toFinset := by
    intro x hx
    rw [List.mem_toFinset] at hx
    refine Finset.mem_sdiff.mpr ⟨bfsExpand_subset_targets hx, ?_⟩
    rw [List.mem_toFinset]
    exact bfsExpand_not_mem_seen hx
  have hcard : new.toFinset.card = new.length :=
    List.toFinset_card_of_nodup (bfsExpand_nodup edgesSet u seen)
  have hset : T \ (seen ++ new).toFinset = (T \ seen.toFinset) \ new.toFinset := by
    ext x
    simp only [Finset.mem_sdiff, List.toFinset_append, Finset.mem_union]
    tauto
  rw [hset]
  have h1 := Finset.card_sdiff hsub
  have h2 := Finset.card_le_card hsub
  omega

/-- BFS over the active edges, following `source → target` only
(App.tsx, lines 493-502).  The queue `q` and visited set `seen` evolve
exactly as in the source; elements of `q` are always already in `seen`. -/
def bfsLoop (edgesSet : List EdgeKey) (q seen : List String) : List String :=
  match q with
  | [] => seen
  | u :: rest =>
    bfsLoop edgesSet (rest ++ bfsExpand edgesSet u seen) (seen ++ bfsExpand edgesSet u seen)
termination_by (bfsTargets edgesSet \ seen.toFinset).card + q.length
decreasing_by
  have h := bfs_measure_key edgesSet u seen
  simp only [List.length_append, List.length_cons]
  omega

/-- `bfsReachable` from App.tsx lines 490-504: nodes reachable from
`start` along active edges; empty when `start` is the empty string. -/
def bfsReachable (start : String) (edgesSet : List EdgeKey) : List String :=
  bfsLoop edgesSet (if start = "" then [] else [start]) (if start = "" then [] else [start])

/-- Forward reachability along an edge set: the specification-level
closure that `bfsReachable` is claimed to compute. -/
inductive Reaches (edgesSet : List EdgeKey) (start : String) : String → Prop
  | refl : Reaches edgesSet start start
  | step {u v : String} : Reaches edgesSet start u → (u, v) ∈ edgesSet →
      Reaches edgesSet start v

theorem Reaches.mono {E E' : List EdgeKey} {start x : String}
    (hsub : ∀ e ∈ E, e ∈ E') (h : Reaches E start x) : Reaches E' start x := by
  induction h with
  | refl => exact Reaches.refl
  | step _ hmem ih => exact Reaches.step ih (hsub _ hmem)

theorem bfsLoop_extends (edgesSet : List EdgeKey) (q seen : List String) :
    ∀ x ∈ seen, x ∈ bfsLoop edgesSet q seen := by
  induction q, seen using bfsLoop.induct edgesSet with
  | case1 seen => simp [bfsLoop]
  | case2 seen u rest ih =>
    intro x hx
    simp only [bfsLoop]
    exact ih x (List.mem_append.mpr (Or.inl hx))

theorem bfsLoop_sound (edgesSet : List EdgeKey) (start : String) (q seen : List String)
    (hq : ∀ x ∈ q, x ∈ seen) (hseen : ∀ x ∈ seen, Reaches edgesSet start x) :
    ∀ x ∈ bfsLoop edgesSet q seen, Reaches edgesSet start x := by
  induction q, seen using bfsLoop.induct edgesSet with
  | case1 seen => simpa [bfsLoop] using hseen
  | case2 seen u rest ih =>
    simp only [bfsLoop]
    have hu : Reaches edgesSet start u := hseen u (hq u (List.mem_cons.mpr (Or.inl rfl)))
    have hseen' : ∀ x ∈ seen ++ bfsExpand edgesSet u seen, Reaches edgesSet start x := by
      intro x hx
      rcases List.mem_append.mp hx with hx | hx
      · exact hseen x hx
      · exact Reaches.step hu (bfsExpand_mem_target hx)
    refine ih ?_ hseen'
    intro x hx
    rcases List.mem_append.mp hx with hx | hx
    · exact List.mem_append.mpr (Or.inl (hq x (List.mem_cons.mpr (Or.inr hx))))
    · exact List.mem_append.mpr (Or.inr hx)

theorem bfsLoop_nodup (edgesSet : List EdgeKey) (q seen : List String)
    (hseen : seen.Nodup) : (bfsLoop edgesSet q seen).Nodup := by
  induction q, seen using bfsLoop.induct edgesSet with
  | case1 seen => simpa [bfsLoop] using hseen
  | case2 seen u rest ih =>
    simp only [bfsLoop]
    refine ih (List.nodup_append.mpr ⟨hseen, bfsExpand_nodup edgesSet u seen, ?_⟩)
    intro x hx hx'
    exact bfsExpand_not_mem_seen hx' hx

theorem bfsLoop_closed (edgesSet : List EdgeKey) (q seen : List String)
    (hq : ∀ x ∈ q, x ∈ seen)
    (hinv : ∀ v ∈ seen, v ∉ q → ∀ t : String, (v, t) ∈ edgesSet → t ∈ seen) :
    ∀ v ∈ bfsLoop edgesSet q seen, ∀ t : String, (v, t) ∈ edgesSet →
      t ∈ bfsLoop edgesSet q seen := by
  induction q, seen using bfsLoop.induct edgesSet with
  | case1 seen =>
    intro v hv t ht
    simp only [bfsLoop] at hv ⊢
    exact hinv v hv (by simp) t ht
  | case2 seen u rest ih =>
    simp only [bfsLoop]
    refine ih ?_ ?_
    · intro x hx
      rcases List.mem_append.mp hx with hx | hx
      · exact List.mem_append.mpr (Or.inl (hq x (List.mem_cons.mpr (Or.inr hx))))
      · exact List.mem_append.mpr (Or.inr hx)
    · intro v hv hvq t ht
      rcases List.mem_append.mp hv with hv | hv
      · by_cases hvu : v = u
        · subst hvu
          rcases bfsExpand_complete seen ht with h | h
          · exact List.mem_append.mpr (Or.inl h)
          · exact List.mem_append.mpr (Or.inr h)
        · have hvnotq : v ∉ u :: rest := by
            intro hc
            rcases List.mem_cons.mp hc with hc | hc
            · exact hvu hc
            · exact hvq (List.mem_append.mpr (Or.inl hc))
          exact List.mem_append.mpr (Or.inl (hinv v hv hvnotq t ht))
      · exact absurd (List.mem_append.mpr (Or.inr hv)) hvq

theorem bfsReachable_empty_start (edgesSet : List EdgeKey) :
    bfsReachable "" edgesSet = [] := by
  simp [bfsReachable, bfsLoop]

theorem bfsReachable_mem_start {start : String} (edgesSet : List EdgeKey)
    (h : start ≠ "") : start ∈ bfsReachable start edgesSet := by
  unfold bfsReachable
  rw [if_neg h]
  exact bfsLoop_extends edgesSet [start] [start] start (List.mem_cons.mpr (Or.inl rfl))

theorem bfsReachable_sound {start x : String} {edgesSet : List EdgeKey}
    (h : x ∈ bfsReachable start edgesSet) : start ≠ "" ∧ Reaches edgesSet start x := by
  by_cases hs : start = ""
  · subst hs
    rw [bfsReachable_empty_start] at h
    simp at h
  · refine ⟨hs, ?_⟩
    unfold bfsReachable at h
    rw [if_neg hs] at h
    refine bfsLoop_sound edgesSet start [start] [start] (fun y hy => hy) ?_ x h
    intro y hy
    rcases List.mem_singleton.mp hy with rfl
    exact Reaches.refl

theorem bfsReachable_complete {start x : String} {edgesSet : List EdgeKey}
    (hs : start ≠ "") (h : Reaches edgesSet start x) :
    x ∈ bfsReachable start edgesSet := by
  have hclosed := bfsLoop_closed edgesSet [start] [start]
    (fun y hy => hy)
    (by
      intro v hv hvq t ht
      exact absurd hv hvq)
  induction h with
  | refl => exact bfsReachable_mem_start edgesSet hs
  | step hr hmem ih =>
    unfold bfsReachable at ih ⊢
    rw [if_neg hs] at ih ⊢
    exact hclosed _ ih _ hmem

theorem bfsReachable_nodup (start : String) (edgesSet : List EdgeKey) :
    (bfsReachable start edgesSet).Nodup := by
  unfold bfsReachable
  split
  · exact bfsLoop_nodup edgesSet [] [] (by simp)
  · exact bfsLoop_nodup edgesSet [start] [start] (by simp)

/-- C2: `bfsReachable` terminates (it is a total function) and computes
exactly the forward closure of `start` along active edges: empty for the
empty start, containing `start` itself for a non-empty start, containing
a node iff it is reachable, and with no node listed twice even when the
active edges contain cycles. -/
theorem bfsReachable_correct (start : String) (edgesSet : List EdgeKey) :
    (start = "" → bfsReachable start edgesSet = [])
    ∧ (start ≠ "" → start ∈ bfsReachable start edgesSet)
    ∧ (∀ x : String, x ∈ bfsReachable start edgesSet ↔
        (start ≠ "" ∧ Reaches edgesSet start x))
    ∧ (bfsReachable start edgesSet).Nodup := by
  refine ⟨?_, ?_, ?_, bfsReachable_nodup start edgesSet⟩
  · intro h; subst h; exact bfsReachable_empty_start edgesSet
  · exact fun h => bfsReachable_mem_start edgesSet h
  · intro x
    constructor
    · exact bfsReachable_sound
    · rintro ⟨hs, hr⟩
      exact bfsReachable_complete hs hr

/-- Witness for C2 at a concrete input: with start `"a"` and the single
active edge `a → b`, the start node is reported reachable. -/
theorem bfsReachable_correct_witness :
    "a" ∈ bfsReachable "a" [("a", "b")] :=
  (bfsReachable_correct "a" [("a", "b")]).2.1 (by decide)

/-- C7: reachability is monotone in the activation set: enlarging the
set of active edges can only enlarge the reachable set. -/
theorem bfsReachable_monotone (start : String) (E E' : List EdgeKey)
    (hsub : ∀ e ∈ E, e ∈ E') :
    ∀ x ∈ bfsReachable start E, x ∈ bfsReachable start E' := by
  intro x hx
  obtain ⟨hs, hr⟩ := bfsReachable_sound hx
  exact bfsReachable_complete hs (hr.mono hsub)

/-- Witness for C7 at a concrete input: adding the edge `b → c` to the
activation set `{a → b}` keeps `b` reachable from `a`. -/
theorem bfsReachable_monotone_witness :
    "b" ∈ bfsReachable "a" [("a", "b"), ("b", "c")] := by
  have hb : "b" ∈ bfsReachable "a" [("a", "b")] := by
    simp [bfsReachable, bfsLoop, bfsExpand]
  exact bfsReachable_monotone "a" [("a", "b")] [("a", "b"), ("b", "c")]
    (by intro e he; simp at he; simp [he]) "b" hb

-- ---------------------------------------------------------------------------
-- Data model (App.tsx, `NodeRow` / `EdgeRow` types, lines 29-46)
-- ---------------------------------------------------------------------------

/-- A Master-Catalog node row.  The source type also carries optional
display-only extras (`size`, open index signature); only the five
semantic fields participate in the lifecycle model. -/
structure NodeRow where
  Name : String
  Family : String
  NameID : String
  FamilyID : String
  Definition : String
deriving DecidableEq

/-- A catalog / imported edge row.  `description` is `string | undefined`
in the source, hence an `Option`; `group` is the (redundant) FamilyID of
the source node. -/
structure EdgeRow where
  id : String
  source : String
  target : String
  group : String
  description : Option String
deriving DecidableEq

/-- `nodeById[id]?.Name || id` (App.tsx lines 2206, 2214). -/
def nodeNameOf (nodes : List NodeRow) (id : String) : String :=
  match nodes.find? (fun n => n.NameID == id) with
  | some n => jsOr n.Name id
  | none => id

-- ---------------------------------------------------------------------------
-- Validator (App.tsx, `getLifecycleErrors`, lines 2186-2220)
-- ---------------------------------------------------------------------------

/-- Character-wise `toLowerCase`; the source only lower-cases ASCII
catalog names. -/
def strToLower (s : String) : String := String.mk (s.data.map Char.toLower)

/-- ASCII whitespace, the whitespace occurring in catalog data. -/
def isWsp (c : Char) : Bool := c == ' ' || c == '\t' || c == '\n' || c == '\r'

/-- Character-wise `trim`: drop leading and trailing whitespace. -/
def strTrim (s : String) : String :=
  String.mk (((s.data.dropWhile isWsp).reverse.dropWhile isWsp).reverse)

def msgTitleRequired : String := "A Title is required."

def msgDescriptionRequired : String := "A Description is required."

def msgStartMissing : String :=
  "The required start node " ++ quoteS ++ "Specify needs" ++ quoteS ++ " was not found."

def msgEndMissing : String :=
  "The required end node " ++ quoteS ++ "Dispose" ++ quoteS ++ " was not found."

def msgDisposeUnreachable : String :=
  "Your path must allow " ++ quoteS ++ "Dispose" ++ quoteS ++ " to be reachable from "
    ++ quoteS ++ "Specify needs" ++ quoteS ++ "."

/-- The illegal-endpoint error naming a node. -/
def endpointMsg (name : String) : String :=
  quoteS ++ name ++ quoteS ++ " is an endpoint, but only " ++ quoteS ++ "Dispose"
    ++ quoteS ++ " or " ++ quoteS ++ "Share" ++ quoteS ++ " may end a branch."

/-- The dangling-source error naming the unreachable source of an active
edge. -/
def danglingMsg (name : String) : String :=
  "Edge from " ++ quoteS ++ name ++ quoteS ++ " is active, but " ++ quoteS ++ name
    ++ quoteS ++ " is not reachable from " ++ quoteS ++ "Specify needs" ++ quoteS ++ "."

/-- `getLifecycleErrors` (App.tsx lines 2186-2220).  `startNodeId`,
`disposeId` and `shareId` are the catalog lookups of lines 759-761,
empty when missing; `key.startsWith(nodeId + "->")` is source equality
of the key pair (ids never contain `"->"`). -/
def getLifecycleErrors (nodes : List NodeRow)
    (title description startNodeId disposeId shareId : String)
    (activeEdgeKeys : List EdgeKey) : List String :=
  let errs1 :=
    (if strTrim title = "" then [msgTitleRequired] else [])
    ++ (if strTrim description = "" then [msgDescriptionRequired] else [])
    ++ (if startNodeId = "" then [msgStartMissing] else [])
    ++ (if disposeId = "" then [msgEndMissing] else [])
  if startNodeId = "" ∨ disposeId = "" then errs1
  else
    let reachable := bfsReachable startNodeId activeEdgeKeys
    let errs2 :=
      if disposeId ∈ reachable then [] else [msgDisposeUnreachable]
    let terminals :=
      reachable.filter (fun nodeId => !(activeEdgeKeys.any (fun k => k.1 == nodeId)))
    let errs3 :=
      (terminals.filter (fun termId => !(termId == disposeId || termId == shareId))).map
        (fun termId => endpointMsg (nodeNameOf nodes termId))
    let errs4 :=
      (activeEdgeKeys.filter (fun k => !(reachable.contains k.1))).map
        (fun k => danglingMsg (nodeNameOf nodes k.1))
    errs1 ++ errs2 ++ errs3 ++ errs4

theorem first_char_append (s t : String) (c : Char) (h : s.data.head? = some c) :
    (s ++ t).data.head? = some c := by
  rw [String.data_append]
  cases hs : s.data with
  | nil => rw [hs] at h; simp at h
  | cons a l => rw [hs] at h; simp at h; simp [h]

theorem endpointMsg_head (a : String) :
    (endpointMsg a).data.head? = some (Char.ofNat 39) := by
  unfold endpointMsg
  repeat rw [String.append_assoc]
  exact first_char_append _ _ _ (by decide)

theorem endpointMsg_inj {a b : String} (h : endpointMsg a = endpointMsg b) : a = b := by
  unfold endpointMsg at h
  have hd := congrArg String.data h
  simp only [String.data_append, List.append_assoc] at hd
  have h1 := List.append_cancel_left hd
  exact String.ext (List.append_cancel_right h1)

theorem endpointMsg_ne_fixed (a : String) :
    endpointMsg a ≠ msgTitleRequired ∧ endpointMsg a ≠ msgDescriptionRequired
    ∧ endpointMsg a ≠ msgStartMissing ∧ endpointMsg a ≠ msgEndMissing
    ∧ endpointMsg a ≠ msgDisposeUnreachable := by
  have hh := endpointMsg_head a
  refine ⟨?_, ?_, ?_, ?_, ?_⟩ <;>
    · intro hc
      rw [hc] at hh
      revert hh
      decide

theorem endpointMsg_ne_dangling (a b : String) : endpointMsg a ≠ danglingMsg b := by
  have hh := endpointMsg_head a
  intro hc
  rw [hc] at hh
  unfold danglingMsg at hh
  repeat rw [String.append_assoc] at hh
  rw [first_char_append _ _ 'E' (by decide)] at hh
  revert hh
  decide

theorem mem_ite_singleton {c : Prop} [Decidable c] {x m : String}
    (h : x ∈ (if c then [m] else [])) : x = m := by
  split at h
  · simpa using h
  · simp at h

theorem mem_ite_nil_left {c : Prop} [Decidable c] {x m : String}
    (h : x ∈ (if c then [] else [m])) : x = m := by
  split at h
  · simp at h
  · simpa using h

set_option maxHeartbeats 1000000 in
/-- C4: with both designated nodes present, every reachable node without
an active outgoing edge that is neither the terminal (`Dispose`) node
nor the secondary terminal (`Share`) node is reported as an illegal
endpoint, and no illegal-endpoint error is ever reported for the
`Dispose` or `Share` node itself.  The name hypotheses reflect the
catalog invariant that display names identify nodes uniquely. -/
theorem getLifecycleErrors_terminal_legality (nodes : List NodeRow)
    (title description startNodeId disposeId shareId : String)
    (active : List EdgeKey)
    (hs : startNodeId ≠ "") (hd : disposeId ≠ "")
    (hinjd : ∀ t ∈ bfsReachable startNodeId active,
      nodeNameOf nodes t = nodeNameOf nodes disposeId → t = disposeId)
    (hinjs : ∀ t ∈ bfsReachable startNodeId active,
      nodeNameOf nodes t = nodeNameOf nodes shareId → t = shareId) :
    (∀ t ∈ bfsReachable startNodeId active,
      (∀ k ∈ active, k.1 ≠ t) → t ≠ disposeId → t ≠ shareId →
      endpointMsg (nodeNameOf nodes t)
        ∈ getLifecycleErrors nodes title description startNodeId disposeId shareId active)
    ∧ endpointMsg (nodeNameOf nodes disposeId)
        ∉ getLifecycleErrors nodes title description startNodeId disposeId shareId active
    ∧ endpointMsg (nodeNameOf nodes shareId)
        ∉ getLifecycleErrors nodes title description startNodeId disposeId shareId active := by
  have hcond : ¬(startNodeId = "" ∨ disposeId = "") := by
    intro hc; rcases hc with hc | hc
    · exact hs hc
    · exact hd hc
  unfold getLifecycleErrors
  rw [if_neg hcond]
  refine ⟨?_, ?_, ?_⟩
  · intro t ht hout htd hts
    refine List.mem_append.mpr (Or.inl (List.mem_append.mpr (Or.inr ?_)))
    refine List.mem_map.mpr ⟨t, ?_, rfl⟩
    refine List.mem_filter.mpr ⟨List.mem_filter.mpr ⟨ht, ?_⟩, ?_⟩
    · simp only [Bool.not_eq_eq_eq_not, Bool.not_true, List.any_eq_false]
      intro k hk
      simpa using hout k hk
    · simp only [Bool.not_eq_eq_eq_not, Bool.not_true, Bool.or_eq_false_iff,
        beq_eq_false_iff_ne, ne_eq]
      exact ⟨htd, hts⟩
  · intro hmem
    rcases List.mem_append.mp hmem with hmem | hmem4
    rcases List.mem_append.mp hmem with hmem | hmem3
    rcases List.mem_append.mp hmem with hmem1 | hmem2
    · rcases List.mem_append.mp hmem1 with hmem1 | hmem1d
      rcases List.mem_append.mp hmem1 with hmem1 | hmem1s
      rcases List.mem_append.mp hmem1 with hmem1t | hmem1e
      · exact (endpointMsg_ne_fixed _).1 (mem_ite_singleton hmem1t)
      · exact (endpointMsg_ne_fixed _).2.1 (mem_ite_singleton hmem1e)
      · exact (endpointMsg_ne_fixed _).2.2.1 (mem_ite_singleton hmem1s)
      · exact (endpointMsg_ne_fixed _).2.2.2.1 (mem_ite_singleton hmem1d)
    · exact (endpointMsg_ne_fixed _).2.2.2.2 (mem_ite_nil_left hmem2)
    · obtain ⟨t', ht', heq⟩ := List.mem_map.mp hmem3
      obtain ⟨ht'r, ht'flag⟩ := List.mem_filter.mp ht'
      have hname := endpointMsg_inj heq
      have : t' = disposeId :=
        hinjd t' (List.mem_filter.mp ht'r).1 hname
      rw [this] at ht'flag
      simp at ht'flag
    · obtain ⟨k, _, heq⟩ := List.mem_map.mp hmem4
      exact endpointMsg_ne_dangling _ _ heq.symm
  · intro hmem
    rcases List.mem_append.mp hmem with hmem | hmem4
    rcases List.mem_append.mp hmem with hmem | hmem3
    rcases List.mem_append.mp hmem with hmem1 | hmem2
    · rcases List.mem_append.mp hmem1 with hmem1 | hmem1d
      rcases List.mem_append.mp hmem1 with hmem1 | hmem1s
      rcases List.mem_append.mp hmem1 with hmem1t | hmem1e
      · exact (endpointMsg_ne_fixed _).1 (mem_ite_singleton hmem1t)
      · exact (endpointMsg_ne_fixed _).2.1 (mem_ite_singleton hmem1e)
      · exact (endpointMsg_ne_fixed _).2.2.1 (mem_ite_singleton hmem1s)
      · exact (endpointMsg_ne_fixed _).2.2.2.1 (mem_ite_singleton hmem1d)
    · exact (endpointMsg_ne_fixed _).2.2.2.2 (mem_ite_nil_left hmem2)
    · obtain ⟨t', ht', heq⟩ := List.mem_map.mp hmem3
      obtain ⟨ht'r, ht'flag⟩ := List.mem_filter.mp ht'
      have hname := endpointMsg_inj heq
      have : t' = shareId :=
        hinjs t' (List.mem_filter.mp ht'r).1 hname
      rw [this] at ht'flag
      simp at ht'flag
    · obtain ⟨k, _, heq⟩ := List.mem_map.mp hmem4
      exact endpointMsg_ne_dangling _ _ heq.symm

/-- Witness for C4 at a concrete input: with start `"s"`, Dispose `"d"`,
Share `"h"` and the single active edge `s → x`, the leaf `x` is reported
as an illegal endpoint. -/
theorem getLifecycleErrors_terminal_legality_witness :
    endpointMsg (nodeNameOf [] "x")
      ∈ getLifecycleErrors [] "t" "desc" "s" "d" "h" [("s", "x")] := by
  have hx : "x" ∈ bfsReachable "s" [("s", "x")] := by
    simp [bfsReachable, bfsLoop, bfsExpand]
  exact (getLifecycleErrors_terminal_legality [] "t" "desc" "s" "d" "h" [("s", "x")]
    (by decide) (by decide)
    (fun t _ h => by simpa [nodeNameOf] using h)
    (fun t _ h => by simpa [nodeNameOf] using h)).1
    "x" hx (by decide) (by decide) (by decide)

-- ---------------------------------------------------------------------------
-- Lifecycle importer (App.tsx, `handleLifecycleLoad`, lines 2030-2175)
-- ---------------------------------------------------------------------------

/-- `FAMILY_CANON` (App.tsx lines 334-350). -/
def FAMILY_CANON : List (String × String) :=
  [ ("INITIATION", "INITIATION")
  , ("ACQUISITION", "ACQUISITION")
  , ("LEVERAGING", "LEVERAGING")
  , ("CONFIGURATION", "CONFIGURATION")
  , ("PROCESSING", "PROCESSING")
  , ("DISPOSITION", "DISPOSITION")
  , ("Plan, design & enable", "INITIATION")
  , ("Create, Capture & Collect", "ACQUISITION")
  , ("Access, use & share", "LEVERAGING")
  , ("Organize, store & maintain", "CONFIGURATION")
  , ("Provision, integrate & Curate", "PROCESSING")
  , ("Archive transfer & destroy", "DISPOSITION") ]

/-- `canonFam` (App.tsx lines 352-355). -/
def canonFam (f : String) : String :=
  if f = "" then f
  else
    match recGet FAMILY_CANON f with
    | some v => v
    | none =>
      match recGet FAMILY_CANON (strTrim f) with
      | some v => v
      | none => f

/-- `toText` (App.tsx line 2038): cells are coerced to trimmed text; we
model cells as the already-stringified value. -/
def toText (s : String) : String := strTrim s

/-- `stripDot0` (App.tsx line 2039): drop a trailing `".0"` picked up
from spreadsheet numification. -/
def stripDot0 (s : String) : String :=
  if s.data.reverse.take 2 = ['0', '.'] then String.mk (s.data.dropLast.dropLast) else s

/-- A raw row of the `Nodes` sheet (cell values as text). -/
structure RawNodeRow where
  Name : String
  Family : String
  NameID : String
  FamilyID : String
  Definition : String
deriving DecidableEq

/-- A raw row of the `Edges` sheet (cell values as text). -/
structure RawEdgeRow where
  id : String
  source : String
  target : String
  group : String
  description : String
deriving DecidableEq

/-- A parsed three-sheet workbook: metadata row 2 plus the node and edge
sheets.  Sheet-presence checking (line 2048) happens before this point;
a workbook value stands for a file whose three sheets were found. -/
structure Workbook where
  title : String
  description : String
  nodeRows : List RawNodeRow
  edgeRows : List RawEdgeRow
deriving DecidableEq

/-- Imported node row coercion (App.tsx lines 2062-2068). -/
def parseNodeRow (r : RawNodeRow) : NodeRow :=
  { Name := toText r.Name
  , Family := canonFam (toText r.Family)
  , NameID := stripDot0 (toText r.NameID)
  , FamilyID := stripDot0 (toText r.FamilyID)
  , Definition := toText r.Definition }

/-- Imported edge row coercion (App.tsx lines 2072-2078); `i` is the
0-based row index used for the fallback id. -/
def parseEdgeRow (i : Nat) (r : RawEdgeRow) : EdgeRow :=
  { id := jsOr (toText r.id) (toString (i + 1))
  , source := stripDot0 (toText r.source)
  , target := stripDot0 (toText r.target)
  , group := stripDot0 (toText r.group)
  , description := some (jsOr (toText r.description) "No description") }

/-- `rawEdges.map((r, i) => ...)`: index-carrying map. -/
def parseEdgeRows : Nat → List RawEdgeRow → List EdgeRow
  | _, [] => []
  | i, r :: rest => parseEdgeRow i r :: parseEdgeRows (i + 1) rest

/-- `nodes.find(n => n.Name.toLowerCase() === nm)?.NameID` with the
JavaScript `undefined` collapsed to `""` (both are falsy at the only
use sites). -/
def lookupIdByName (masterNodes : List NodeRow) (nm : String) : String :=
  match masterNodes.find? (fun n => strToLower n.Name == nm) with
  | some n => n.NameID
  | none => ""

/-- `nodes.find(n => n.NameID === id)?.FamilyID || ""`. -/
def familyIdOf (masterNodes : List NodeRow) (id : String) : String :=
  match masterNodes.find? (fun n => n.NameID == id) with
  | some n => jsOr n.FamilyID ""
  | none => ""

/-- Auto-heal, node half (App.tsx lines 2085-2097): ensure the
`Specify needs` row is present, synthesizing it from the master catalog
when absent.  Runs before foreign-key validation.  The source binds
`specifyId` / `acquireId` once; the pure lookups are inlined here.  The
inner `find` for the master row cannot fail when `specifyId` is
non-empty; the impossible branch leaves the list unchanged. -/
def healNodes (masterNodes : List NodeRow) (inN : List NodeRow) : List NodeRow :=
  if lookupIdByName masterNodes "specify needs" ≠ ""
      ∧ lookupIdByName masterNodes "acquire" ≠ "" then
    if inN.any (fun n => n.NameID == lookupIdByName masterNodes "specify needs") then inN
    else
      match masterNodes.find?
          (fun n => n.NameID == lookupIdByName masterNodes "specify needs") with
      | some base =>
        inN ++ [{ Name := base.Name, Family := base.Family, NameID := base.NameID
                , FamilyID := base.FamilyID, Definition := base.Definition }]
      | none => inN
  else inN

/-- Auto-heal, edge half (App.tsx lines 2098-2107): ensure the
`Specify needs → Acquire` edge is present, synthesizing it with the
sentinel description when absent. -/
def healEdges (masterNodes : List NodeRow) (inE : List EdgeRow) : List EdgeRow :=
  if lookupIdByName masterNodes "specify needs" ≠ ""
      ∧ lookupIdByName masterNodes "acquire" ≠ "" then
    if inE.any (fun e => e.source == lookupIdByName masterNodes "specify needs"
        && e.target == lookupIdByName masterNodes "acquire") then inE
    else
      inE ++ [{ id := toString (inE.length + 1)
              , source := lookupIdByName masterNodes "specify needs"
              , target := lookupIdByName masterNodes "acquire"
              , group := familyIdOf masterNodes (lookupIdByName masterNodes "specify needs")
              , description := some "No description" }]
  else inE

/-- The auto-heal block (App.tsx lines 2080-2108): the two pushes are
independent, acting on the node and edge lists respectively. -/
def healImport (masterNodes : List NodeRow) (inN : List NodeRow) (inE : List EdgeRow) :
    List NodeRow × List EdgeRow :=
  (healNodes masterNodes inN, healEdges masterNodes inE)

/-- `Nodes sheet: NameID '…' not found in All Nodes` (App.tsx line 2117). -/
def nodeProblemMsg (nameId : String) : String :=
  "Nodes sheet: NameID " ++ quoteS ++ jsOr nameId "(missing)" ++ quoteS
    ++ " not found in All Nodes"

/-- `Edges sheet: pair '…' not found in All Edges` (App.tsx line 2124). -/
def edgeProblemMsg (source target : String) : String :=
  "Edges sheet: pair " ++ quoteS ++ source ++ "->" ++ target ++ quoteS
    ++ " not found in All Edges"

/-- Foreign-key validation against the master universe
(App.tsx lines 2110-2126): one problem entry per offending row. -/
def fkProblems (masterNodes : List NodeRow) (masterEdges : List EdgeRow)
    (inN : List NodeRow) (inE : List EdgeRow) : List String :=
  (inN.filter (fun n =>
      n.NameID == "" || !(masterNodes.any (fun m => m.NameID == n.NameID)))).map
    (fun n => nodeProblemMsg n.NameID)
  ++ (inE.filter (fun e =>
      !(masterEdges.any (fun m => m.source == e.source && m.target == e.target)))).map
    (fun e => edgeProblemMsg e.source e.target)

/-- `lifecycleMode` state values. -/
inductive LifecycleMode
  | nothing
  | create
  | edit
deriving DecidableEq

/-- `FilterMode` (App.tsx line 407): `null | "id" | "group" | "legend"`. -/
inductive FilterMode
  | nothing
  | byId
  | byGroup
  | legend
deriving DecidableEq

/-- The in-memory state touched by the lifecycle model: the React state
variables of `App` that the importer, serializer and validator read or
write.  `edges` is the master edge list with merged descriptions;
`nodeDesc` is the per-node description-override record. -/
structure AppState where
  lifecycleMode : LifecycleMode
  title : String
  description : String
  activeEdgeKeys : List EdgeKey
  filterMode : FilterMode
  selectedName : String
  selectedGroup : String
  legendActive : List String
  edges : List EdgeRow
  nodeDesc : List (String × String)
deriving DecidableEq

/-- Replace the first element satisfying `p` (JavaScript
`findIndex` + in-place assignment). -/
def updateFirst {α : Type} (l : List α) (p : α → Bool) (f : α → α) : List α :=
  match l with
  | [] => []
  | x :: xs => if p x then f x :: xs else x :: updateFirst xs p f

/-- Merged description of one imported edge over the current one
(App.tsx lines 2151-2156):
`(imp.description && imp.description.trim()) || current || "No description"`. -/
def mergeDescription (imp cur : Option String) : String :=
  let a := match imp with
           | some s => if s = "" then "" else strTrim s
           | none => ""
  jsOr a (jsOr (match cur with | some s => s | none => "") "No description")

/-- `handleLifecycleLoad` (App.tsx lines 2030-2175) from the point where
the three sheets have been read: coercion, auto-heal, strict foreign-key
validation, and — only when no problem was collected — the commit into
app state.  Returns the new state and the problem list; on a non-empty
problem list the state is returned untouched (the source `return`s
before any setter). -/
def importLifecycle (masterNodes : List NodeRow) (st : AppState) (wb : Workbook) :
    AppState × List String :=
  let t := toText wb.title
  let d := toText wb.description
  let inN0 := wb.nodeRows.map parseNodeRow
  let inE0 := parseEdgeRows 0 wb.edgeRows
  let healed := healImport masterNodes inN0 inE0
  let inN := healed.1
  let inE := healed.2
  let problems := fkProblems masterNodes st.edges inN inE
  if problems = [] then
    let nextActive :=
      jsSetOfList ((inE.filter (fun e => !(e.source == "") && !(e.target == ""))).map
        (fun e => (e.source, e.target)))
    let mergedEdges := inE.foldl (fun acc imp =>
      if imp.source == "" || imp.target == "" then acc
      else updateFirst acc (fun x => x.source == imp.source && x.target == imp.target)
        (fun x => { x with description := some (mergeDescription imp.description x.description) }))
      st.edges
    let importedNodeDesc := inN.foldl (fun acc n =>
      if !(n.NameID == "") && !(strTrim n.Definition == "")
      then recSet acc n.NameID (strTrim n.Definition)
      else acc) []
    ({ st with lifecycleMode := LifecycleMode.edit
             , title := t
             , description := d
             , activeEdgeKeys := nextActive
             , edges := mergedEdges
             , nodeDesc := importedNodeDesc }, [])
  else (st, problems)

theorem mem_jsInsert {α : Type} [DecidableEq α] {l : List α} {x y : α} :
    x ∈ jsInsert l y ↔ x ∈ l ∨ x = y := by
  unfold jsInsert
  split
  · rename_i hy
    constructor
    · exact Or.inl
    · rintro (h | rfl)
      · exact h
      · exact hy
  · simp [List.mem_append]

theorem mem_foldl_jsInsert {α : Type} [DecidableEq α] (l acc : List α) (x : α) :
    x ∈ l.foldl jsInsert acc ↔ x ∈ acc ∨ x ∈ l := by
  induction l generalizing acc with
  | nil => simp
  | cons y rest ih =>
    simp only [List.foldl_cons, ih, mem_jsInsert, List.mem_cons]
    tauto

theorem mem_jsSetOfList {α : Type} [DecidableEq α] (l : List α) (x : α) :
    x ∈ jsSetOfList l ↔ x ∈ l := by
  unfold jsSetOfList
  rw [mem_foldl_jsInsert]
  simp

theorem healNodes_mem (masterNodes : List NodeRow) (inN : List NodeRow)
    {x : NodeRow} (hx : x ∈ inN) : x ∈ healNodes masterNodes inN := by
  unfold healNodes
  split
  · split
    · exact hx
    · split
      · exact List.mem_append.mpr (Or.inl hx)
      · exact hx
  · exact hx

theorem healEdges_mem (masterNodes : List NodeRow) (inE : List EdgeRow)
    {x : EdgeRow} (hx : x ∈ inE) : x ∈ healEdges masterNodes inE := by
  unfold healEdges
  split
  · split
    · exact hx
    · exact List.mem_append.mpr (Or.inl hx)
  · exact hx

theorem parseEdgeRows_exists_mem {raws : List RawEdgeRow} {r : RawEdgeRow}
    (hr : r ∈ raws) (n : Nat) : ∃ i, parseEdgeRow i r ∈ parseEdgeRows n raws := by
  induction raws generalizing n with
  | nil => simp at hr
  | cons a rest ih =>
    rcases List.mem_cons.mp hr with rfl | h'
    · exact ⟨n, List.mem_cons.mpr (Or.inl rfl)⟩
    · obtain ⟨i, hi⟩ := ih h' (n + 1)
      exact ⟨i, List.mem_cons.mpr (Or.inr hi)⟩

/-- A node row violates the master catalog when its id is not a catalog
node id (the claim-level notion; the source additionally flags an empty
id, which only adds further entries). -/
def nodeViolation (masterNodes : List NodeRow) (n : NodeRow) : Prop :=
  n.NameID ∉ masterNodes.map NodeRow.NameID

/-- An edge row violates the master catalog when its pair is not a
catalog edge pair. -/
def edgeViolation (masterEdges : List EdgeRow) (e : EdgeRow) : Prop :=
  ∀ m ∈ masterEdges, ¬(m.source = e.source ∧ m.target = e.target)

theorem fkProblems_node_mem (masterNodes : List NodeRow) (masterEdges : List EdgeRow)
    (inN : List NodeRow) (inE : List EdgeRow) {n : NodeRow} (hn : n ∈ inN)
    (hv : nodeViolation masterNodes n) :
    nodeProblemMsg n.NameID ∈ fkProblems masterNodes masterEdges inN inE := by
  unfold fkProblems
  refine List.mem_append.mpr (Or.inl (List.mem_map.mpr ⟨n, ?_, rfl⟩))
  refine List.mem_filter.mpr ⟨hn, ?_⟩
  have hany : masterNodes.any (fun m => m.NameID == n.NameID) = false := by
    by_contra hB
    rw [Bool.not_eq_false, List.any_eq_true] at hB
    obtain ⟨m, hm, hmn⟩ := hB
    exact hv (List.mem_map.mpr ⟨m, hm, by simpa using hmn⟩)
  show (n.NameID == "" || !(masterNodes.any fun m => m.NameID == n.NameID)) = true
  rw [hany]
  simp

theorem fkProblems_edge_mem (masterNodes : List NodeRow) (masterEdges : List EdgeRow)
    (inN : List NodeRow) (inE : List EdgeRow) {e : EdgeRow} (he : e ∈ inE)
    (hv : edgeViolation masterEdges e) :
    edgeProblemMsg e.source e.target ∈ fkProblems masterNodes masterEdges inN inE := by
  unfold fkProblems
  refine List.mem_append.mpr (Or.inr (List.mem_map.mpr ⟨e, ?_, rfl⟩))
  refine List.mem_filter.mpr ⟨he, ?_⟩
  have hany : masterEdges.any (fun m => m.source == e.source && m.target == e.target)
      = false := by
    by_contra hB
    rw [Bool.not_eq_false, List.any_eq_true] at hB
    obtain ⟨m, hm, hme⟩ := hB
    simp only [Bool.and_eq_true, beq_iff_eq] at hme
    exact hv m hm hme
  show (!(masterEdges.any fun m => m.source == e.source && m.target == e.target)) = true
  rw [hany]
  simp

theorem importLifecycle_of_problems (masterNodes : List NodeRow) (st : AppState)
    (wb : Workbook)
    (h : fkProblems masterNodes st.edges
          (healNodes masterNodes (wb.nodeRows.map parseNodeRow))
          (healEdges masterNodes (parseEdgeRows 0 wb.edgeRows)) ≠ []) :
    importLifecycle masterNodes st wb =
      (st, fkProblems masterNodes st.edges
            (healNodes masterNodes (wb.nodeRows.map parseNodeRow))
            (healEdges masterNodes (parseEdgeRows 0 wb.edgeRows))) := by
  unfold importLifecycle healImport
  rw [if_neg h]

/-- C1: a workbook with any node row whose id is outside the catalog's
node set, or any edge row whose pair is outside the catalog's edge set,
is rejected: the problem list is non-empty, carries one entry per
violating row (node and edge violations alike, not only the first), and
the prior in-memory state is returned completely unchanged. -/
theorem importLifecycle_fk_strict (masterNodes : List NodeRow) (st : AppState)
    (wb : Workbook)
    (hviol : (∃ r ∈ wb.nodeRows, nodeViolation masterNodes (parseNodeRow r))
      ∨ (∃ r ∈ wb.edgeRows, edgeViolation st.edges (parseEdgeRow 0 r))) :
    (importLifecycle masterNodes st wb).1 = st
    ∧ (importLifecycle masterNodes st wb).2 ≠ []
    ∧ (∀ r ∈ wb.nodeRows, nodeViolation masterNodes (parseNodeRow r) →
        nodeProblemMsg (parseNodeRow r).NameID ∈ (importLifecycle masterNodes st wb).2)
    ∧ (∀ r ∈ wb.edgeRows, edgeViolation st.edges (parseEdgeRow 0 r) →
        edgeProblemMsg (parseEdgeRow 0 r).source (parseEdgeRow 0 r).target
          ∈ (importLifecycle masterNodes st wb).2) := by
  have hnode : ∀ r ∈ wb.nodeRows, nodeViolation masterNodes (parseNodeRow r) →
      nodeProblemMsg (parseNodeRow r).NameID
        ∈ fkProblems masterNodes st.edges
            (healNodes masterNodes (wb.nodeRows.map parseNodeRow))
            (healEdges masterNodes (parseEdgeRows 0 wb.edgeRows)) := by
    intro r hr hv
    exact fkProblems_node_mem _ _ _ _
      (healNodes_mem _ _ (List.mem_map.mpr ⟨r, hr, rfl⟩)) hv
  have hedge : ∀ r ∈ wb.edgeRows, edgeViolation st.edges (parseEdgeRow 0 r) →
      edgeProblemMsg (parseEdgeRow 0 r).source (parseEdgeRow 0 r).target
        ∈ fkProblems masterNodes st.edges
            (healNodes masterNodes (wb.nodeRows.map parseNodeRow))
            (healEdges masterNodes (parseEdgeRows 0 wb.edgeRows)) := by
    intro r hr hv
    obtain ⟨i, hi⟩ := parseEdgeRows_exists_mem hr 0
    exact @fkProblems_edge_mem masterNodes st.edges
      (healNodes masterNodes (wb.nodeRows.map parseNodeRow))
      (healEdges masterNodes (parseEdgeRows 0 wb.edgeRows))
      (parseEdgeRow i r) (healEdges_mem _ _ hi) hv
  have hne : fkProblems masterNodes st.edges
      (healNodes masterNodes (wb.nodeRows.map parseNodeRow))
      (healEdges masterNodes (parseEdgeRows 0 wb.edgeRows)) ≠ [] := by
    rcases hviol with ⟨r, hr, hv⟩ | ⟨r, hr, hv⟩
    · exact List.ne_nil_of_mem (hnode r hr hv)
    · exact List.ne_nil_of_mem (hedge r hr hv)
  rw [importLifecycle_of_problems masterNodes st wb hne]
  exact ⟨rfl, hne, hnode, hedge⟩

/-- A minimal app state used by concrete witnesses. -/
def sampleState : AppState :=
  { lifecycleMode := LifecycleMode.nothing
  , title := ""
  , description := ""
  , activeEdgeKeys := []
  , filterMode := FilterMode.nothing
  , selectedName := ""
  , selectedGroup := ""
  , legendActive := []
  , edges := []
  , nodeDesc := [] }

/-- Witness for C1 at a concrete input: a workbook whose single node row
has the unknown id `z` is rejected with the prior state unchanged. -/
theorem importLifecycle_fk_strict_witness :
    (importLifecycle []
      sampleState
      { title := "T", description := "D"
      , nodeRows := [{ Name := "N", Family := "F", NameID := "z"
                     , FamilyID := "f", Definition := "d" }]
      , edgeRows := [] }).1 = sampleState :=
  (importLifecycle_fk_strict [] sampleState _
    (Or.inl ⟨_, List.mem_singleton.mpr rfl, by simp [nodeViolation]⟩)).1

theorem importLifecycle_of_ok (masterNodes : List NodeRow) (st : AppState) (wb : Workbook)
    (h : fkProblems masterNodes st.edges
          (healNodes masterNodes (wb.nodeRows.map parseNodeRow))
          (healEdges masterNodes (parseEdgeRows 0 wb.edgeRows)) = []) :
    importLifecycle masterNodes st wb =
      ({ st with
          lifecycleMode := LifecycleMode.edit
        , title := toText wb.title
        , description := toText wb.description
        , activeEdgeKeys := jsSetOfList
            (((healEdges masterNodes (parseEdgeRows 0 wb.edgeRows)).filter
                (fun e => !(e.source == "") && !(e.target == ""))).map
              (fun e => (e.source, e.target)))
        , edges := (healEdges masterNodes (parseEdgeRows 0 wb.edgeRows)).foldl
            (fun acc imp =>
              if imp.source == "" || imp.target == "" then acc
              else updateFirst acc
                (fun x => x.source == imp.source && x.target == imp.target)
                (fun x => { x with
                  description := some (mergeDescription imp.description x.description) }))
            st.edges
        , nodeDesc := (healNodes masterNodes (wb.nodeRows.map parseNodeRow)).foldl
            (fun acc n =>
              if !(n.NameID == "") && !(strTrim n.Definition == "")
              then recSet acc n.NameID (strTrim n.Definition)
              else acc) [] }, []) := by
  unfold importLifecycle healImport
  rw [if_pos h]

theorem importLifecycle_snd_empty_iff (masterNodes : List NodeRow) (st : AppState)
    (wb : Workbook) :
    (importLifecycle masterNodes st wb).2 = [] ↔
      fkProblems masterNodes st.edges
        (healNodes masterNodes (wb.nodeRows.map parseNodeRow))
        (healEdges masterNodes (parseEdgeRows 0 wb.edgeRows)) = [] := by
  constructor
  · intro h
    by_contra hne
    rw [importLifecycle_of_problems masterNodes st wb hne] at h
    exact hne h
  · intro h
    rw [importLifecycle_of_ok masterNodes st wb h]

theorem lookupIdByName_mem {masterNodes : List NodeRow} {nm : String}
    (h : lookupIdByName masterNodes nm ≠ "") :
    ∃ nf ∈ masterNodes, nf.NameID = lookupIdByName masterNodes nm := by
  unfold lookupIdByName at h ⊢
  cases hf : masterNodes.find? (fun n => strToLower n.Name == nm) with
  | none => rw [hf] at h; exact absurd rfl h
  | some nf => exact ⟨nf, List.mem_of_find?_eq_some hf, rfl⟩

theorem healNodes_has_specify (masterNodes : List NodeRow) (inN : List NodeRow)
    (hs : lookupIdByName masterNodes "specify needs" ≠ "")
    (ha : lookupIdByName masterNodes "acquire" ≠ "") :
    ∃ n ∈ healNodes masterNodes inN,
      n.NameID = lookupIdByName masterNodes "specify needs" := by
  unfold healNodes
  rw [if_pos ⟨hs, ha⟩]
  split
  · rename_i hany
    obtain ⟨n, hn, hbeq⟩ := List.any_eq_true.mp hany
    exact ⟨n, hn, by simpa using hbeq⟩
  · cases hf : masterNodes.find?
        (fun n => n.NameID == lookupIdByName masterNodes "specify needs") with
    | none =>
      obtain ⟨nf, hnf, hid⟩ := lookupIdByName_mem hs
      have := List.find?_eq_none.mp hf nf hnf
      simp [hid] at this
    | some base =>
      refine ⟨_, List.mem_append.mpr (Or.inr (List.mem_singleton.mpr rfl)), ?_⟩
      have := List.find?_some hf
      simpa using this

theorem healEdges_has_anchor (masterNodes : List NodeRow) (inE : List EdgeRow)
    (hs : lookupIdByName masterNodes "specify needs" ≠ "")
    (ha : lookupIdByName masterNodes "acquire" ≠ "") :
    ∃ e ∈ healEdges masterNodes inE,
      e.source = lookupIdByName masterNodes "specify needs"
      ∧ e.target = lookupIdByName masterNodes "acquire" := by
  unfold healEdges
  rw [if_pos ⟨hs, ha⟩]
  split
  · rename_i hany
    obtain ⟨e, he, hbeq⟩ := List.any_eq_true.mp hany
    simp only [Bool.and_eq_true, beq_iff_eq] at hbeq
    exact ⟨e, he, hbeq⟩
  · exact ⟨_, List.mem_append.mpr (Or.inr (List.mem_singleton.mpr rfl)), rfl, rfl⟩

/-- C5: when the catalog provides the `Specify needs` and `Acquire`
nodes, the importer guarantees — via the auto-heal step, which runs
before foreign-key validation — that the node list contains the start
node row and the edge list the `Specify needs → Acquire` edge
(synthesizing each from the catalog / with the default description if
absent), so any accepted workbook commits an activation set containing
that structural edge. -/
theorem importLifecycle_autoheal (masterNodes : List NodeRow) (st : AppState)
    (wb : Workbook)
    (hs : lookupIdByName masterNodes "specify needs" ≠ "")
    (ha : lookupIdByName masterNodes "acquire" ≠ "") :
    (∃ n ∈ healNodes masterNodes (wb.nodeRows.map parseNodeRow),
      n.NameID = lookupIdByName masterNodes "specify needs")
    ∧ (∃ e ∈ healEdges masterNodes (parseEdgeRows 0 wb.edgeRows),
      e.source = lookupIdByName masterNodes "specify needs"
      ∧ e.target = lookupIdByName masterNodes "acquire")
    ∧ ((importLifecycle masterNodes st wb).2 = [] →
      (lookupIdByName masterNodes "specify needs",
       lookupIdByName masterNodes "acquire")
        ∈ (importLifecycle masterNodes st wb).1.activeEdgeKeys) := by
  refine ⟨healNodes_has_specify masterNodes _ hs ha,
    healEdges_has_anchor masterNodes _ hs ha, ?_⟩
  intro hok
  obtain ⟨e, he, hes, het⟩ := healEdges_has_anchor masterNodes (parseEdgeRows 0 wb.edgeRows) hs ha
  have hprob := (importLifecycle_snd_empty_iff masterNodes st wb).mp hok
  rw [importLifecycle_of_ok masterNodes st wb hprob]
  rw [mem_jsSetOfList]
  refine List.mem_map.mpr ⟨e, ?_, by rw [hes, het]⟩
  refine List.mem_filter.mpr ⟨he, ?_⟩
  have h1 : (e.source == "") = false := by
    rw [beq_eq_false_iff_ne]; rw [hes]; exact hs
  have h2 : (e.target == "") = false := by
    rw [beq_eq_false_iff_ne]; rw [het]; exact ha
  rw [h1, h2]
  rfl

/-- Witness for C5 at a concrete input: a tiny catalog containing
`Specify needs` and `Acquire` and an empty workbook; the auto-healed
load is accepted and activates the structural edge. -/
theorem importLifecycle_autoheal_witness :
    ("sn", "acq") ∈ (importLifecycle
      [ { Name := "Specify needs", Family := "F", NameID := "sn"
        , FamilyID := "f1", Definition := "d1" }
      , { Name := "Acquire", Family := "F", NameID := "acq"
        , FamilyID := "f1", Definition := "d2" } ]
      { sampleState with
          edges := [{ id := "1", source := "sn", target := "acq", group := "f1"
                    , description := none }] }
      { title := "T", description := "D", nodeRows := [], edgeRows := [] }).1.activeEdgeKeys := by
  have h := (importLifecycle_autoheal
    [ { Name := "Specify needs", Family := "F", NameID := "sn"
      , FamilyID := "f1", Definition := "d1" }
    , { Name := "Acquire", Family := "F", NameID := "acq"
      , FamilyID := "f1", Definition := "d2" } ]
    { sampleState with
        edges := [{ id := "1", source := "sn", target := "acq", group := "f1"
                  , description := none }] }
    { title := "T", description := "D", nodeRows := [], edgeRows := [] }
    (by decide) (by decide)).2.2
  have hlook : lookupIdByName
      [ { Name := "Specify needs", Family := "F", NameID := "sn"
        , FamilyID := "f1", Definition := "d1" }
      , { Name := "Acquire", Family := "F", NameID := "acq"
        , FamilyID := "f1", Definition := "d2" } ] "specify needs" = "sn" := by decide
  have hlook2 : lookupIdByName
      [ { Name := "Specify needs", Family := "F", NameID := "sn"
        , FamilyID := "f1", Definition := "d1" }
      , { Name := "Acquire", Family := "F", NameID := "acq"
        , FamilyID := "f1", Definition := "d2" } ] "acquire" = "acq" := by decide
  rw [hlook, hlook2] at h
  exact h (by decide)

theorem recGet_recSet_self (l : List (String × String)) (k v : String) :
    recGet (recSet l k v) k = some v := by
  induction l with
  | nil => simp [recSet, recGet]
  | cons p rest ih =>
    obtain ⟨k', v'⟩ := p
    simp only [recSet]
    split
    · simp [recGet]
    · rename_i hk
      simp only [recGet]
      rw [if_neg hk]
      exact ih

theorem recGet_recSet_other (l : List (String × String)) (k v k' : String)
    (h : k ≠ k') :
    recGet (recSet l k v) k' = recGet l k' := by
  induction l with
  | nil => simp [recSet, recGet, h]
  | cons p rest ih =>
    obtain ⟨k0, v0⟩ := p
    simp only [recSet]
    split
    · rename_i h0
      subst h0
      simp [recGet, h]
    · simp only [recGet]
      split
      · rfl
      · exact ih

/-- One step of the imported-override fold (App.tsx lines 2163-2167). -/
def nodeDescStep (acc : List (String × String)) (n : NodeRow) : List (String × String) :=
  if !(n.NameID == "") && !(strTrim n.Definition == "")
  then recSet acc n.NameID (strTrim n.Definition)
  else acc

theorem recGet_nodeDescStep (acc : List (String × String)) (n : NodeRow) (id : String) :
    recGet (nodeDescStep acc n) id ≠ none ↔
      recGet acc id ≠ none
      ∨ (n.NameID = id ∧ n.NameID ≠ "" ∧ strTrim n.Definition ≠ "") := by
  unfold nodeDescStep
  split
  · rename_i hcond
    simp only [Bool.and_eq_true, Bool.not_eq_eq_eq_not, Bool.not_true,
      beq_eq_false_iff_ne, ne_eq] at hcond
    by_cases hid : n.NameID = id
    · subst hid
      rw [recGet_recSet_self]
      simp [hcond.1, hcond.2]
    · rw [recGet_recSet_other _ _ _ _ hid]
      simp [hid]
  · rename_i hcond
    simp only [Bool.and_eq_true, Bool.not_eq_eq_eq_not, Bool.not_true,
      beq_eq_false_iff_ne, ne_eq, not_and] at hcond
    constructor
    · exact Or.inl
    · rintro (h | ⟨h1, h2, h3⟩)
      · exact h
      · by_cases hz : n.NameID = ""
        · exact absurd hz h2
        · exact absurd h3 (by simpa [hz] using hcond)

theorem recGet_nodeDescFold (l : List NodeRow) (acc : List (String × String))
    (id : String) :
    recGet (l.foldl nodeDescStep acc) id ≠ none ↔
      recGet acc id ≠ none
      ∨ ∃ n ∈ l, n.NameID = id ∧ n.NameID ≠ "" ∧ strTrim n.Definition ≠ "" := by
  induction l generalizing acc with
  | nil => simp
  | cons n rest ih =>
    simp only [List.foldl_cons, ih, recGet_nodeDescStep, List.mem_cons]
    constructor
    · rintro ((h | h) | ⟨m, hm, hp⟩)
      · exact Or.inl h
      · exact Or.inr ⟨n, Or.inl rfl, h⟩
      · exact Or.inr ⟨m, Or.inr hm, hp⟩
    · rintro (h | ⟨m, (rfl | hm), hp⟩)
      · exact Or.inl (Or.inl h)
      · exact Or.inl (Or.inr hp)
      · exact Or.inr ⟨m, hm, hp⟩

/-- C6 (corrected): on a successful import, the per-node description
override record has an entry exactly for the ids of imported (healed)
rows whose trimmed `Definition` is non-empty — whether or not that
definition differs from the catalog default, which the source never
compares against. -/
theorem importLifecycle_nodeDesc (masterNodes : List NodeRow) (st : AppState)
    (wb : Workbook) (hok : (importLifecycle masterNodes st wb).2 = []) :
    ∀ id : String,
      recGet (importLifecycle masterNodes st wb).1.nodeDesc id ≠ none ↔
        ∃ n ∈ healNodes masterNodes (wb.nodeRows.map parseNodeRow),
          n.NameID = id ∧ n.NameID ≠ "" ∧ strTrim n.Definition ≠ "" := by
  intro id
  have hprob := (importLifecycle_snd_empty_iff masterNodes st wb).mp hok
  rw [importLifecycle_of_ok masterNodes st wb hprob]
  have := recGet_nodeDescFold
    (healNodes masterNodes (wb.nodeRows.map parseNodeRow)) [] id
  simp only [recGet, ne_eq, not_true_eq_false, false_or] at this
  exact this

/-- Counterexample to C6 as stated: a workbook row whose `Definition`
equals the catalog default (`"D"`) still creates an override entry. -/
theorem importLifecycle_nodeDesc_counterexample :
    (importLifecycle
      [{ Name := "Alpha", Family := "F", NameID := "a", FamilyID := "f"
       , Definition := "D" }]
      sampleState
      { title := "T", description := "De"
      , nodeRows := [{ Name := "Alpha", Family := "F", NameID := "a", FamilyID := "f"
                     , Definition := "D" }]
      , edgeRows := [] }).2 = []
    ∧ recGet (importLifecycle
      [{ Name := "Alpha", Family := "F", NameID := "a", FamilyID := "f"
       , Definition := "D" }]
      sampleState
      { title := "T", description := "De"
      , nodeRows := [{ Name := "Alpha", Family := "F", NameID := "a", FamilyID := "f"
                     , Definition := "D" }]
      , edgeRows := [] }).1.nodeDesc "a" = some "D" := by
  constructor <;> decide

/-- Witness for the amended C6 at a concrete input: the override record
of the counterexample import has an entry for `a`. -/
theorem importLifecycle_nodeDesc_witness :
    recGet (importLifecycle
      [{ Name := "Alpha", Family := "F", NameID := "a", FamilyID := "f"
       , Definition := "D" }]
      sampleState
      { title := "T", description := "De"
      , nodeRows := [{ Name := "Alpha", Family := "F", NameID := "a", FamilyID := "f"
                     , Definition := "D" }]
      , edgeRows := [] }).1.nodeDesc "a" ≠ none := by
  have h := importLifecycle_nodeDesc
    [{ Name := "Alpha", Family := "F", NameID := "a", FamilyID := "f"
     , Definition := "D" }]
    sampleState
    { title := "T", description := "De"
    , nodeRows := [{ Name := "Alpha", Family := "F", NameID := "a", FamilyID := "f"
                   , Definition := "D" }]
    , edgeRows := [] }
    (by decide) "a"
  exact h.mpr ⟨{ Name := "Alpha", Family := "F", NameID := "a", FamilyID := "f"
               , Definition := "D" }, by decide, by decide, by decide, by decide⟩

-- ---------------------------------------------------------------------------
-- Export: Edges sheet (App.tsx, `saveLifecycle`, lines 2238-2251)
-- ---------------------------------------------------------------------------

/-- JavaScript `opt || b` where `opt : string | undefined`. -/
def jsOrOpt (o : Option String) (b : String) : String :=
  match o with
  | some s => jsOr s b
  | none => b

/-- An output row of the `Edges` sheet: numeric re-numbered `id`. -/
structure EdgeOut where
  id : Nat
  source : String
  target : String
  group : String
  description : String
deriving DecidableEq

/-- One output row (App.tsx lines 2245-2251): `id` re-numbered from the
0-based position, `group` recomputed as the FamilyID of the source node
from the catalog (not carried over from the stored edge), `description`
defaulted to the sentinel. -/
def edgeOutRow (nodes : List NodeRow) (i : Nat) (e : EdgeRow) : EdgeOut :=
  { id := i + 1
  , source := e.source
  , target := e.target
  , group := familyIdOf nodes e.source
  , description := jsOrOpt e.description "No description" }

/-- `edgesOutRaw` (App.tsx lines 2238-2243): for each active key, the
first stored edge with that (source, target) pair, skipping keys with no
match. -/
def buildEdgesOutRaw (edges : List EdgeRow) (activeEdgeKeys : List EdgeKey) :
    List EdgeRow :=
  activeEdgeKeys.filterMap
    (fun k => edges.find? (fun e => e.source == k.1 && e.target == k.2))

/-- `edgesOutRaw.map((e, i) => ...)`: index-carrying map. -/
def mapIdxEdgeOut (nodes : List NodeRow) : Nat → List EdgeRow → List EdgeOut
  | _, [] => []
  | i, e :: rest => edgeOutRow nodes i e :: mapIdxEdgeOut nodes (i + 1) rest

/-- The `Edges` sheet content of `saveLifecycle`. -/
def buildEdgesOut (nodes : List NodeRow) (edges : List EdgeRow)
    (activeEdgeKeys : List EdgeKey) : List EdgeOut :=
  mapIdxEdgeOut nodes 0 (buildEdgesOutRaw edges activeEdgeKeys)

theorem mapIdxEdgeOut_length (nodes : List NodeRow) (n : Nat) (l : List EdgeRow) :
    (mapIdxEdgeOut nodes n l).length = l.length := by
  induction l generalizing n with
  | nil => rfl
  | cons e rest ih => simp [mapIdxEdgeOut, ih]

theorem mapIdxEdgeOut_get? (nodes : List NodeRow) (n : Nat) (l : List EdgeRow)
    (i : Nat) :
    (mapIdxEdgeOut nodes n l)[i]? = l[i]?.map (edgeOutRow nodes (n + i)) := by
  induction l generalizing n i with
  | nil => simp [mapIdxEdgeOut]
  | cons e rest ih =>
    cases i with
    | zero => simp [mapIdxEdgeOut]
    | succ j =>
      simp only [mapIdxEdgeOut, List.getElem?_cons_succ, ih]
      have hn : n + 1 + j = n + (j + 1) := by omega
      rw [hn]

theorem buildEdgesOutRaw_spec (edges : List EdgeRow) (active : List EdgeKey)
    (hk : ∀ k ∈ active,
      (edges.find? (fun e => e.source == k.1 && e.target == k.2)).isSome) :
    (buildEdgesOutRaw edges active).length = active.length
    ∧ ∀ (i : Nat) (k : EdgeKey), active[i]? = some k →
        (buildEdgesOutRaw edges active)[i]? =
          edges.find? (fun e => e.source == k.1 && e.target == k.2) := by
  induction active with
  | nil => exact ⟨rfl, by intro i k h; simp at h⟩
  | cons k0 rest ih =>
    have hk0 := hk k0 (List.mem_cons.mpr (Or.inl rfl))
    obtain ⟨e0, he0⟩ := Option.isSome_iff_exists.mp hk0
    have hrest := ih (fun k hkm => hk k (List.mem_cons.mpr (Or.inr hkm)))
    have hcons : buildEdgesOutRaw edges (k0 :: rest) =
        e0 :: buildEdgesOutRaw edges rest := by
      unfold buildEdgesOutRaw
      rw [List.filterMap_cons, he0]
    constructor
    · rw [hcons]
      simp [hrest.1]
    · intro i k hik
      cases i with
      | zero =>
        simp only [List.getElem?_cons_zero, Option.some.injEq] at hik
        subst hik
        rw [hcons]
        simp [he0]
      | succ j =>
        simp only [List.getElem?_cons_succ] at hik
        rw [hcons]
        simpa using hrest.2 j k hik

/-- C8: for an activation set whose every key matches a stored edge (the
Activation Set invariant; guaranteed for any state whose keys come from
the catalog), the exported `Edges` sheet has exactly one row per active
key, in order, with `id` re-numbered `i + 1` at position `i`, `source`
and `target` from the key, `group` recomputed as the catalog FamilyID of
the source node, and `description` the stored (override-merged)
description defaulted to the sentinel `"No description"`. -/
theorem saveLifecycle_edges_sheet (nodes : List NodeRow) (edges : List EdgeRow)
    (active : List EdgeKey)
    (hk : ∀ k ∈ active,
      (edges.find? (fun e => e.source == k.1 && e.target == k.2)).isSome) :
    (buildEdgesOut nodes edges active).length = active.length
    ∧ ∀ (i : Nat) (k : EdgeKey), active[i]? = some k →
        ∃ e, edges.find? (fun x => x.source == k.1 && x.target == k.2) = some e
          ∧ e ∈ edges ∧ e.source = k.1 ∧ e.target = k.2
          ∧ (buildEdgesOut nodes edges active)[i]? =
              some { id := i + 1, source := e.source, target := e.target
                   , group := familyIdOf nodes e.source
                   , description := jsOrOpt e.description "No description" } := by
  obtain ⟨hlen, hget⟩ := buildEdgesOutRaw_spec edges active hk
  constructor
  · unfold buildEdgesOut
    rw [mapIdxEdgeOut_length, hlen]
  · intro i k hik
    have hraw := hget i k hik
    obtain ⟨e, he⟩ := Option.isSome_iff_exists.mp (hk k (by
      have := List.getElem?_mem hik
      exact this))
    refine ⟨e, he, List.mem_of_find?_eq_some he, ?_, ?_, ?_⟩
    · have := List.find?_some he
      simp only [Bool.and_eq_true, beq_iff_eq] at this
      exact this.1
    · have := List.find?_some he
      simp only [Bool.and_eq_true, beq_iff_eq] at this
      exact this.2
    · unfold buildEdgesOut
      rw [mapIdxEdgeOut_get?, hraw, he]
      simp [edgeOutRow]

/-- Witness for C8 at a concrete input: one active edge, one stored
edge, one output row. -/
theorem saveLifecycle_edges_sheet_witness :
    (buildEdgesOut []
      [{ id := "7", source := "a", target := "b", group := "stale"
       , description := some "d" }]
      [("a", "b")]).length = 1 :=
  (saveLifecycle_edges_sheet []
    [{ id := "7", source := "a", target := "b", group := "stale"
     , description := some "d" }]
    [("a", "b")] (by decide)).1

-- ---------------------------------------------------------------------------
-- Legend filter (part_002, `toggleLegendFamily`, lines 888-923)
-- ---------------------------------------------------------------------------

/-- The next legend-active family set computed by `toggleLegendFamily`:
outside legend mode a click isolates the clicked family; in legend mode
it toggles membership, and a deletion that would empty the set re-adds
the clicked family.  The surrounding function also re-dims the display
and commits the set with `setLegendActive`; only the set computation is
part of the lifecycle model. -/
def toggleLegendFamily (filterMode : FilterMode) (legendActive : List String)
    (fam : String) : List String :=
  if filterMode ≠ FilterMode.legend then [fam]
  else
    let next :=
      if fam ∈ legendActive
      then legendActive.filter (fun x => !(x == fam))
      else jsInsert legendActive fam
    if next.length = 0 then jsInsert next fam else next

/-- C9: the computed legend set is never empty; a click outside legend
mode yields exactly the clicked family; in legend mode membership of
every other family is unchanged, and the clicked family ends up in the
set iff it was absent (toggle on) or removing it would have emptied the
set (rejected toggle off). -/
theorem toggleLegendFamily_spec (fm : FilterMode) (legendActive : List String)
    (fam : String) :
    toggleLegendFamily fm legendActive fam ≠ []
    ∧ (fm ≠ FilterMode.legend → toggleLegendFamily fm legendActive fam = [fam])
    ∧ (fm = FilterMode.legend →
        (∀ x, x ≠ fam →
          (x ∈ toggleLegendFamily fm legendActive fam ↔ x ∈ legendActive))
        ∧ (fam ∈ toggleLegendFamily fm legendActive fam ↔
            (fam ∉ legendActive
             ∨ legendActive.filter (fun x => !(x == fam)) = []))) := by
  by_cases hfm : fm = FilterMode.legend
  · subst hfm
    have hnotne : ¬(FilterMode.legend ≠ FilterMode.legend) := by simp
    by_cases hmem : fam ∈ legendActive
    · by_cases hemp : legendActive.filter (fun x => !(x == fam)) = []
      · have hres : toggleLegendFamily FilterMode.legend legendActive fam = [fam] := by
          unfold toggleLegendFamily
          rw [if_neg hnotne, if_pos hmem, hemp]
          simp [jsInsert]
        rw [hres]
        refine ⟨by simp, by simp, fun _ => ⟨?_, ?_⟩⟩
        · intro x hx
          simp only [List.mem_singleton]
          constructor
          · intro h; exact absurd h hx
          · intro h
            have hmf : x ∈ legendActive.filter (fun y => !(y == fam)) :=
              List.mem_filter.mpr ⟨h, by simp [hx]⟩
            rw [hemp] at hmf
            simp at hmf
        · simp [hemp]
      · have hres : toggleLegendFamily FilterMode.legend legendActive fam =
            legendActive.filter (fun x => !(x == fam)) := by
          unfold toggleLegendFamily
          rw [if_neg hnotne, if_pos hmem]
          rw [if_neg (fun hc => hemp (List.length_eq_zero.mp hc))]
        rw [hres]
        refine ⟨hemp, by simp, fun _ => ⟨?_, ?_⟩⟩
        · intro x hx
          constructor
          · intro h; exact (List.mem_filter.mp h).1
          · intro h; exact List.mem_filter.mpr ⟨h, by simp [hx]⟩
        · constructor
          · intro h
            have := (List.mem_filter.mp h).2
            simp at this
          · rintro (h | h)
            · exact absurd hmem h
            · exact absurd h hemp
    · have hres : toggleLegendFamily FilterMode.legend legendActive fam =
          legendActive ++ [fam] := by
        unfold toggleLegendFamily
        have hins : jsInsert legendActive fam = legendActive ++ [fam] := by
          unfold jsInsert
          rw [if_neg hmem]
        rw [if_neg hnotne, if_neg hmem, hins, if_neg (by simp)]
      rw [hres]
      refine ⟨by simp, by simp, fun _ => ⟨?_, ?_⟩⟩
      · intro x hx
        simp [List.mem_append, hx]
      · simp [List.mem_append, hmem]
  · have hres : toggleLegendFamily fm legendActive fam = [fam] := by
      unfold toggleLegendFamily
      rw [if_pos hfm]
    rw [hres]
    exact ⟨by simp, fun _ => rfl, fun h => absurd h hfm⟩

/-- Witness for C9 at a concrete input: toggling the sole active family
off is rejected, leaving the set non-empty. -/
theorem toggleLegendFamily_spec_witness :
    toggleLegendFamily FilterMode.legend ["A"] "A" ≠ [] :=
  (toggleLegendFamily_spec FilterMode.legend ["A"] "A").1

-- ---------------------------------------------------------------------------
-- Compact state snapshot (App.tsx, `snapshot` lines 2272-2307,
-- `applyState` lines 925-950)
-- ---------------------------------------------------------------------------

/-- An entry of `AppPersist.edgeDescriptions`. -/
structure EdgeDescEntry where
  source : String
  target : String
  description : Option String
deriving DecidableEq

/-- `AppPersist` (App.tsx lines 621-632): the compact Contract-C
snapshot shape. -/
structure AppPersist where
  lifecycleMode : LifecycleMode
  title : String
  description : String
  activeEdgeKeys : List EdgeKey
  filterMode : FilterMode
  selectedName : String
  selectedGroup : String
  legendActive : List String
  edgeDescriptions : List EdgeDescEntry
  nodeDescriptions : List (String × String)
deriving DecidableEq

/-- The autosave snapshot (App.tsx lines 2272-2295): a straight copy of
the state fields, with every stored edge contributing its
(source, target, description) triple and the override record exported
as its entry list. -/
def snapshot (st : AppState) : AppPersist :=
  { lifecycleMode := st.lifecycleMode
  , title := st.title
  , description := st.description
  , activeEdgeKeys := st.activeEdgeKeys
  , filterMode := st.filterMode
  , selectedName := st.selectedName
  , selectedGroup := st.selectedGroup
  , legendActive := st.legendActive
  , edgeDescriptions := st.edges.map (fun e => ⟨e.source, e.target, e.description⟩)
  , nodeDescriptions := st.nodeDesc }

/-- `applyState` (App.tsx lines 925-950) applied over the current state
`st`.  `st.title || ""` is `jsOr`; `st.filterMode ?? null` is the
identity on the closed `FilterMode` type; `new Set(...)` deduplicates;
`st.legendActive || groups` never falls back since the snapshot always
stores an array (arrays are truthy, even empty).  Edge descriptions are
merged into the current edges by first matching pair; node overrides
are rebuilt from scratch — but only when the persisted list is
non-empty (the `if (st.nodeDescriptions && st.nodeDescriptions.length)`
guard), and `typeof Definition === "string"` always holds in the typed
model. -/
def applyState (st : AppState) (p : AppPersist) : AppState :=
  { lifecycleMode := p.lifecycleMode
  , title := jsOr p.title ""
  , description := jsOr p.description ""
  , activeEdgeKeys := jsSetOfList p.activeEdgeKeys
  , filterMode := p.filterMode
  , selectedName := jsOr p.selectedName ""
  , selectedGroup := jsOr p.selectedGroup ""
  , legendActive := jsSetOfList p.legendActive
  , edges :=
      if p.edgeDescriptions.length ≠ 0 then
        p.edgeDescriptions.foldl (fun acc d =>
          updateFirst acc (fun x => x.source == d.source && x.target == d.target)
            (fun x => { x with description :=
              match d.description with
              | some v => some v
              | none => x.description })) st.edges
      else st.edges
  , nodeDesc :=
      if p.nodeDescriptions.length ≠ 0 then
        p.nodeDescriptions.foldl (fun acc kv =>
          if kv.1 ≠ "" then recSet acc kv.1 kv.2 else acc) []
      else st.nodeDesc }

theorem jsOr_empty_right (a : String) : jsOr a "" = a := by
  unfold jsOr
  split
  · rename_i h; exact h.symm
  · rfl

theorem foldl_jsInsert_append {α : Type} [DecidableEq α] (l acc : List α)
    (hnd : l.Nodup) (hdisj : ∀ x ∈ l, x ∉ acc) :
    l.foldl jsInsert acc = acc ++ l := by
  induction l generalizing acc with
  | nil => simp
  | cons x rest ih =>
    simp only [List.foldl_cons]
    have hx : x ∉ acc := hdisj x (List.mem_cons.mpr (Or.inl rfl))
    have hins : jsInsert acc x = acc ++ [x] := by
      unfold jsInsert
      rw [if_neg hx]
    have hdisj' : ∀ y ∈ rest, y ∉ acc ++ [x] := by
      intro y hy
      simp only [List.mem_append, List.mem_singleton]
      rintro (h | rfl)
      · exact hdisj y (List.mem_cons.mpr (Or.inr hy)) h
      · exact (List.nodup_cons.mp hnd).1 hy
    rw [hins, ih (acc ++ [x]) (List.nodup_cons.mp hnd).2 hdisj']
    simp

theorem jsSetOfList_eq_self {α : Type} [DecidableEq α] {l : List α}
    (h : l.Nodup) : jsSetOfList l = l := by
  unfold jsSetOfList
  rw [foldl_jsInsert_append l [] h (by simp)]
  simp

theorem updateFirst_id {α : Type} (l : List α) (p : α → Bool) (f : α → α)
    (h : ∀ x ∈ l, p x = true → f x = x) : updateFirst l p f = l := by
  induction l with
  | nil => rfl
  | cons x xs ih =>
    unfold updateFirst
    split
    · rename_i hp
      rw [h x (List.mem_cons.mpr (Or.inl rfl)) hp]
    · rw [ih (fun y hy hp => h y (List.mem_cons.mpr (Or.inr hy)) hp)]

theorem recSet_append (acc : List (String × String)) (k v : String)
    (h : ∀ q ∈ acc, q.1 ≠ k) : recSet acc k v = acc ++ [(k, v)] := by
  induction acc with
  | nil => rfl
  | cons q rest ih =>
    obtain ⟨k0, v0⟩ := q
    unfold recSet
    rw [if_neg (h (k0, v0) (List.mem_cons.mpr (Or.inl rfl)))]
    rw [ih (fun q hq => h q (List.mem_cons.mpr (Or.inr hq)))]
    rfl

theorem nodeDesc_rebuild (l : List (String × String)) (acc : List (String × String))
    (hnd : (l.map Prod.fst).Nodup) (hne : ∀ kv ∈ l, kv.1 ≠ "")
    (hdisj : ∀ kv ∈ l, ∀ q ∈ acc, q.1 ≠ kv.1) :
    l.foldl (fun acc kv => if kv.1 ≠ "" then recSet acc kv.1 kv.2 else acc) acc
      = acc ++ l := by
  induction l generalizing acc with
  | nil => simp
  | cons kv rest ih =>
    obtain ⟨k, v⟩ := kv
    simp only [List.foldl_cons]
    have hnd' : (k :: rest.map Prod.fst).Nodup := by simpa using hnd
    have hknotin : k ∉ rest.map Prod.fst := (List.nodup_cons.mp hnd').1
    have hrestnd : (rest.map Prod.fst).Nodup := (List.nodup_cons.mp hnd').2
    have hdisj' : ∀ kv ∈ rest, ∀ q ∈ acc ++ [(k, v)], q.1 ≠ kv.1 := by
      intro kv hkv q hq
      rcases List.mem_append.mp hq with hq | hq
      · exact hdisj kv (List.mem_cons.mpr (Or.inr hkv)) q hq
      · rcases List.mem_singleton.mp hq with rfl
        intro hc
        refine hknotin ?_
        rw [show k = kv.1 from hc]
        exact List.mem_map.mpr ⟨kv, hkv, rfl⟩
    rw [if_pos (hne (k, v) (List.mem_cons.mpr (Or.inl rfl)))]
    rw [recSet_append acc k v (hdisj (k, v) (List.mem_cons.mpr (Or.inl rfl)))]
    rw [ih (acc ++ [(k, v)]) hrestnd
      (fun q hq => hne q (List.mem_cons.mpr (Or.inr hq))) hdisj']
    simp

theorem edges_merge_id (edges : List EdgeRow)
    (hpairs : (edges.map (fun e => (e.source, e.target))).Nodup)
    (ds : List EdgeDescEntry)
    (hds : ∀ d ∈ ds, ∃ e ∈ edges,
      e.source = d.source ∧ e.target = d.target ∧ e.description = d.description) :
    ds.foldl (fun acc d =>
      updateFirst acc (fun x => x.source == d.source && x.target == d.target)
        (fun x => { x with description :=
          match d.description with
          | some v => some v
          | none => x.description })) edges = edges := by
  induction ds with
  | nil => rfl
  | cons d rest ih =>
    simp only [List.foldl_cons]
    obtain ⟨e, he, hes, het, hed⟩ := hds d (List.mem_cons.mpr (Or.inl rfl))
    have hstep : updateFirst edges
        (fun x => x.source == d.source && x.target == d.target)
        (fun x => { x with description :=
          match d.description with
          | some v => some v
          | none => x.description }) = edges := by
      refine updateFirst_id _ _ _ ?_
      intro x hx hp
      simp only [Bool.and_eq_true, beq_iff_eq] at hp
      have hxe : x = e := by
        refine List.inj_on_of_nodup_map hpairs hx he ?_
        simp only [Prod.mk.injEq]
        exact ⟨hp.1.trans hes.symm, hp.2.trans het.symm⟩
      subst hxe
      rw [← hed]
      obtain ⟨xi, xs, xt, xg, xd⟩ := x
      cases xd <;> rfl
    rw [hstep]
    exact ih (fun q hq => hds q (List.mem_cons.mpr (Or.inr hq)))

/-- C3: re-importing the compact snapshot of a state restores it
exactly.  The hypotheses are the representation invariants of the
source: JavaScript `Set`s hold no duplicates, catalog (source, target)
pairs are unique, and the override record has unique non-empty keys. -/
theorem snapshot_applyState_roundtrip (st : AppState)
    (hact : st.activeEdgeKeys.Nodup)
    (hleg : st.legendActive.Nodup)
    (hpairs : (st.edges.map (fun e => (e.source, e.target))).Nodup)
    (hkeys : (st.nodeDesc.map Prod.fst).Nodup)
    (hne : ∀ kv ∈ st.nodeDesc, kv.1 ≠ "") :
    applyState st (snapshot st) = st := by
  obtain ⟨lm, t, d, a, f, sn, sg, la, e, nd⟩ := st
  simp only at hact hleg hpairs hkeys hne
  unfold applyState snapshot
  simp only [AppState.mk.injEq]
  refine ⟨trivial, jsOr_empty_right t, jsOr_empty_right d, jsSetOfList_eq_self hact,
    trivial, jsOr_empty_right sn, jsOr_empty_right sg, jsSetOfList_eq_self hleg,
    ?_, ?_⟩
  · by_cases he : e = []
    · subst he
      simp
    · rw [if_pos (by simpa [List.length_eq_zero] using he)]
      refine edges_merge_id e hpairs _ ?_
      intro q hq
      obtain ⟨x, hx, hq⟩ := List.mem_map.mp hq
      subst hq
      exact ⟨x, hx, rfl, rfl, rfl⟩
  · by_cases hnd : nd = []
    · subst hnd
      simp
    · rw [if_pos (by simpa [List.length_eq_zero] using hnd)]
      have := nodeDesc_rebuild nd [] hkeys hne (by simp)
      simpa using this

/-- Witness for C3 at a concrete input: a small draft with an active
edge, a legend family, one stored edge and one override survives the
snapshot round trip unchanged. -/
theorem snapshot_applyState_roundtrip_witness :
    applyState
      { lifecycleMode := LifecycleMode.edit
      , title := "T", description := "D"
      , activeEdgeKeys := [("a", "b")]
      , filterMode := FilterMode.legend
      , selectedName := "", selectedGroup := ""
      , legendActive := ["F"]
      , edges := [{ id := "1", source := "a", target := "b", group := "g"
                  , description := some "dd" }]
      , nodeDesc := [("a", "x")] }
      (snapshot
        { lifecycleMode := LifecycleMode.edit
        , title := "T", description := "D"
        , activeEdgeKeys := [("a", "b")]
        , filterMode := FilterMode.legend
        , selectedName := "", selectedGroup := ""
        , legendActive := ["F"]
        , edges := [{ id := "1", source := "a", target := "b", group := "g"
                    , description := some "dd" }]
        , nodeDesc := [("a", "x")] }) =
      { lifecycleMode := LifecycleMode.edit
      , title := "T", description := "D"
      , activeEdgeKeys := [("a", "b")]
      , filterMode := FilterMode.legend
      , selectedName := "", selectedGroup := ""
      , legendActive := ["F"]
      , edges := [{ id := "1", source := "a", target := "b", group := "g"
                  , description := some "dd" }]
      , nodeDesc := [("a", "x")] } :=
  snapshot_applyState_roundtrip _
    (by decide) (by decide) (by decide) (by decide) (by decide)

-- ---------------------------------------------------------------------------
-- URL-safe base64 (App.tsx, `base64UrlEncode` / `base64UrlDecode`,
-- lines 636-643)
-- ---------------------------------------------------------------------------

/-- UTF-8 encoding of one code point, the byte view that
`unescape(encodeURIComponent(s))` exposes to `btoa`. -/
def utf8Bytes (n : Nat) : List Nat :=
  if n < 0x80 then [n]
  else if n < 0x800 then [0xC0 + n / 64, 0x80 + n % 64]
  else if n < 0x10000 then
    [0xE0 + n / 4096, 0x80 + (n / 64) % 64, 0x80 + n % 64]
  else
    [0xF0 + n / 262144, 0x80 + (n / 4096) % 64, 0x80 + (n / 64) % 64, 0x80 + n % 64]

/-- The UTF-8 byte stream of a string. -/
def strUtf8 (s : String) : List Nat :=
  (s.data.map (fun c => utf8Bytes c.toNat)).flatten

/-- Whether a byte is a UTF-8 continuation byte. -/
def utf8Cont (b : Nat) : Bool := 0x80 ≤ b && b < 0xC0

/-- Decode the first UTF-8 sequence of a byte list: the code point and
the remaining bytes, or `none` on malformed input (the source's
`decodeURIComponent` throws). -/
def utf8First (l : List Nat) : Option (Nat × List Nat) :=
  match l with
  | [] => none
  | b1 :: rest =>
    if b1 < 0x80 then some (b1, rest)
    else if b1 < 0xC0 then none
    else if b1 < 0xE0 then
      match rest with
      | b2 :: rest2 =>
        if utf8Cont b2 then
          if 0x80 ≤ (b1 - 0xC0) * 64 + (b2 - 0x80) then
            some ((b1 - 0xC0) * 64 + (b2 - 0x80), rest2)
          else none
        else none
      | [] => none
    else if b1 < 0xF0 then
      match rest with
      | b2 :: b3 :: rest3 =>
        if utf8Cont b2 && utf8Cont b3 then
          if 0x800 ≤ (b1 - 0xE0) * 4096 + (b2 - 0x80) * 64 + (b3 - 0x80) then
            some ((b1 - 0xE0) * 4096 + (b2 - 0x80) * 64 + (b3 - 0x80), rest3)
          else none
        else none
      | _ => none
    else if b1 < 0xF8 then
      match rest with
      | b2 :: b3 :: b4 :: rest4 =>
        if utf8Cont b2 && utf8Cont b3 && utf8Cont b4 then
          if 0x10000 ≤ (b1 - 0xF0) * 262144 + (b2 - 0x80) * 4096
              + (b3 - 0x80) * 64 + (b4 - 0x80) then
            some ((b1 - 0xF0) * 262144 + (b2 - 0x80) * 4096
              + (b3 - 0x80) * 64 + (b4 - 0x80), rest4)
          else none
        else none
      | _ => none
    else none

/-- UTF-8 decoding loop; the fuel argument (instantiated with the list
length, an upper bound on the number of code points) makes the
recursion structural. -/
def utf8DecodeF : Nat → List Nat → Option (List Nat)
  | _, [] => some []
  | 0, _ :: _ => none
  | fuel + 1, b1 :: rest =>
    match utf8First (b1 :: rest) with
    | some (n, rest') => (utf8DecodeF fuel rest').map (n :: ·)
    | none => none

/-- UTF-8 decoding into code points, the inverse view that
`decodeURIComponent(escape(bytes))` applies after `atob`. -/
def utf8Decode (l : List Nat) : Option (List Nat) := utf8DecodeF l.length l

/-- The standard base64 alphabet used by `btoa`. -/
def b64Alphabet : String :=
  "ABCDEFGHIJKLMNOPQRSTUVWXYZabcdefghijklmnopqrstuvwxyz0123456789+/"

/-- The base64 character of a sextet. -/
def b64Char (n : Nat) : Char := b64Alphabet.data.getD n 'A'

/-- The sextet of a base64 character (`none` off-alphabet, as `atob`
throws). -/
def b64Index (c : Char) : Option Nat :=
  b64Alphabet.data.findIdx? (fun a => a == c)

/-- `btoa`: 3-byte groups to 4 characters, with `=` padding. -/
def btoaBytes : List Nat → List Char
  | [] => []
  | [a] => [b64Char (a / 4), b64Char ((a % 4) * 16), '=', '=']
  | [a, b] => [b64Char (a / 4), b64Char ((a % 4) * 16 + b / 16),
               b64Char ((b % 16) * 4), '=']
  | a :: b :: c :: rest =>
    b64Char (a / 4) :: b64Char ((a % 4) * 16 + b / 16)
      :: b64Char ((b % 16) * 4 + c / 64) :: b64Char (c % 64) :: btoaBytes rest

/-- `atob`: 4-character groups to bytes, honouring terminal padding. -/
def atobChars (l : List Char) : Option (List Nat) :=
  match l with
  | [] => some []
  | c1 :: c2 :: c3 :: c4 :: rest =>
    match b64Index c1, b64Index c2 with
    | some i1, some i2 =>
      if c3 = '=' then
        if c4 = '=' ∧ rest = [] then some [i1 * 4 + i2 / 16] else none
      else
        match b64Index c3 with
        | some i3 =>
          if c4 = '=' then
            if rest = [] then some [i1 * 4 + i2 / 16, (i2 % 16) * 16 + i3 / 4]
            else none
          else
            match b64Index c4 with
            | some i4 =>
              (atobChars rest).map (fun bs =>
                (i1 * 4 + i2 / 16) :: ((i2 % 16) * 16 + i3 / 4)
                  :: ((i3 % 4) * 64 + i4) :: bs)
            | none => none
        | none => none
    | _, _ => none
  | _ => none

/-- `.replace(/\+/g, "-").replace(/\//g, "_")`, character-wise. -/
def toUrlChar (c : Char) : Char :=
  if c = '+' then '-' else if c = '/' then '_' else c

/-- The reverse character mapping: `-` back to `+`, `_` back to the
slash. -/
def fromUrlChar (c : Char) : Char :=
  if c = '-' then '+' else if c = '_' then '/' else c

/-- `.replace(/=+$/, "")`: drop the trailing run of `=`. -/
def stripTrailingEq (l : List Char) : List Char :=
  (l.reverse.dropWhile (fun c => c == '=')).reverse

/-- `base64UrlEncode` (App.tsx lines 636-639):
`btoa(unescape(encodeURIComponent(s)))` with `+`/`/` mapped to `-`/`_`
and padding stripped. -/
def base64UrlEncode (s : String) : String :=
  String.mk (stripTrailingEq ((btoaBytes (strUtf8 s)).map toUrlChar))

/-- `base64UrlDecode` (App.tsx lines 640-643): reverse mapping, padding
restored with `"===".slice((s.length + 3) % 4)`, then
`decodeURIComponent(escape(atob(b64)))`; failures (which the source
throws) are `none`. -/
def base64UrlDecode (s : String) : Option String :=
  match atobChars (s.data.map fromUrlChar
      ++ List.replicate (3 - (s.data.length + 3) % 4) '=') with
  | some bytes =>
    match utf8Decode bytes with
    | some cps => some (String.mk (cps.map Char.ofNat))
    | none => none
  | none => none

theorem utf8Bytes_lt {n : Nat} (h : n < 0x110000) : ∀ b ∈ utf8Bytes n, b < 256 := by
  unfold utf8Bytes
  split
  · intro b hb
    simp only [List.mem_singleton] at hb
    omega
  · split
    · intro b hb
      simp only [List.mem_cons, List.mem_singleton] at hb
      rcases hb with rfl | rfl | hb
      · omega
      · omega
      · simp at hb
    · split
      · intro b hb
        simp only [List.mem_cons, List.mem_singleton] at hb
        rcases hb with rfl | rfl | rfl | hb
        · omega
        · omega
        · omega
        · simp at hb
      · intro b hb
        simp only [List.mem_cons, List.mem_singleton] at hb
        rcases hb with rfl | rfl | rfl | rfl | hb
        · omega
        · omega
        · omega
        · omega
        · simp at hb

theorem utf8First_utf8Bytes {n : Nat} (hn : n < 0x110000) (tail : List Nat) :
    utf8First (utf8Bytes n ++ tail) = some (n, tail) := by
  by_cases h1 : n < 0x80
  · rw [utf8Bytes, if_pos h1]
    show utf8First (n :: tail) = _
    simp only [utf8First]
    rw [if_pos h1]
  · by_cases h2 : n < 0x800
    · rw [utf8Bytes, if_neg h1, if_pos h2]
      show utf8First ((0xC0 + n / 64) :: (0x80 + n % 64) :: tail) = _
      simp only [utf8First]
      rw [if_neg (by omega), if_neg (by omega), if_pos (by omega)]
      rw [if_pos (by simp only [utf8Cont, Bool.and_eq_true, decide_eq_true_eq]; omega)]
      rw [if_pos (by omega)]
      have he : (0xC0 + n / 64 - 0xC0) * 64 + (0x80 + n % 64 - 0x80) = n := by omega
      rw [he]
    · by_cases h3 : n < 0x10000
      · rw [utf8Bytes, if_neg h1, if_neg h2, if_pos h3]
        show utf8First
          ((0xE0 + n / 4096) :: (0x80 + (n / 64) % 64) :: (0x80 + n % 64) :: tail) = _
        simp only [utf8First]
        rw [if_neg (by omega), if_neg (by omega), if_neg (by omega), if_pos (by omega)]
        rw [if_pos (by
          simp only [utf8Cont, Bool.and_eq_true, decide_eq_true_eq]
          omega)]
        rw [if_pos (by omega)]
        have he : (0xE0 + n / 4096 - 0xE0) * 4096 + (0x80 + (n / 64) % 64 - 0x80) * 64
            + (0x80 + n % 64 - 0x80) = n := by omega
        rw [he]
      · rw [utf8Bytes, if_neg h1, if_neg h2, if_neg h3]
        show utf8First
          ((0xF0 + n / 262144) :: (0x80 + (n / 4096) % 64) :: (0x80 + (n / 64) % 64)
            :: (0x80 + n % 64) :: tail) = _
        simp only [utf8First]
        rw [if_neg (by omega), if_neg (by omega), if_neg (by omega), if_neg (by omega),
          if_pos (by omega)]
        rw [if_pos (by
          simp only [utf8Cont, Bool.and_eq_true, decide_eq_true_eq]
          omega)]
        rw [if_pos (by omega)]
        have he : (0xF0 + n / 262144 - 0xF0) * 262144
            + (0x80 + (n / 4096) % 64 - 0x80) * 4096
            + (0x80 + (n / 64) % 64 - 0x80) * 64 + (0x80 + n % 64 - 0x80) = n := by omega
        rw [he]

theorem utf8First_length {l : List Nat} {n : Nat} {rest' : List Nat}
    (h : utf8First l = some (n, rest')) : rest'.length < l.length := by
  cases l with
  | nil => simp [utf8First] at h
  | cons b1 rest =>
    simp only [utf8First] at h
    repeat' split at h
    all_goals
      simp only [Option.some.injEq, Prod.mk.injEq, List.length_cons] at h ⊢
    all_goals first
      | (obtain ⟨h1, h2⟩ := h
         subst h2
         omega)
      | exact absurd h (by simp)

theorem utf8DecodeF_irrel : ∀ (f1 : Nat) (l : List Nat) (f2 : Nat),
    l.length ≤ f1 → l.length ≤ f2 → utf8DecodeF f1 l = utf8DecodeF f2 l := by
  intro f1
  induction f1 with
  | zero =>
    intro l f2 h1 _
    cases l with
    | nil => cases f2 <;> rfl
    | cons b rest => simp at h1
  | succ f1p ih =>
    intro l f2 h1 h2
    cases l with
    | nil => cases f2 <;> rfl
    | cons b1 rest =>
      cases f2 with
      | zero => simp at h2
      | succ f2p =>
        simp only [utf8DecodeF]
        cases hfirst : utf8First (b1 :: rest) with
        | none => rfl
        | some p =>
          obtain ⟨n, rest'⟩ := p
          have hl := utf8First_length hfirst
          simp only [List.length_cons] at hl h1 h2
          dsimp only
          rw [ih rest' f2p (by omega) (by omega)]

theorem utf8Decode_cons {l : List Nat} {n : Nat} {rest' : List Nat}
    (h : utf8First l = some (n, rest')) :
    utf8Decode l = (utf8Decode rest').map (n :: ·) := by
  cases l with
  | nil => simp [utf8First] at h
  | cons b1 rest =>
    show utf8DecodeF (rest.length + 1) (b1 :: rest) = _
    simp only [utf8DecodeF, h]
    have hl := utf8First_length h
    simp only [List.length_cons] at hl
    rw [utf8DecodeF_irrel rest.length rest' rest'.length (by omega) le_rfl]
    rfl

theorem utf8Decode_utf8Bytes_append {n : Nat} (hn : n < 0x110000) (tail : List Nat) :
    utf8Decode (utf8Bytes n ++ tail) = (utf8Decode tail).map (n :: ·) :=
  utf8Decode_cons (utf8First_utf8Bytes hn tail)

theorem char_toNat_lt (c : Char) : c.toNat < 0x110000 := by
  have h := c.valid
  have he : c.toNat = c.val.toNat := rfl
  rcases h with h | h <;> omega

theorem utf8Decode_strUtf8 (s : String) :
    utf8Decode (strUtf8 s) = some (s.data.map Char.toNat) := by
  unfold strUtf8
  induction s.data with
  | nil => rfl
  | cons c cs ih =>
    simp only [List.map_cons, List.flatten_cons]
    rw [utf8Decode_utf8Bytes_append (char_toNat_lt c)]
    rw [ih]
    rfl

theorem strUtf8_lt (s : String) : ∀ b ∈ strUtf8 s, b < 256 := by
  intro b hb
  unfold strUtf8 at hb
  obtain ⟨l, hl, hbl⟩ := List.mem_flatten.mp hb
  obtain ⟨c, _, hcl⟩ := List.mem_map.mp hl
  subst hcl
  exact utf8Bytes_lt (char_toNat_lt c) b hbl

theorem b64Index_b64Char : ∀ n : Nat, n < 64 → b64Index (b64Char n) = some n := by
  decide

theorem b64Char_ne_pad : ∀ n : Nat, n < 64 → ¬(b64Char n = '=') := by
  decide

theorem toUrlChar_b64Char_ne_pad : ∀ n : Nat, n < 64 → ¬(toUrlChar (b64Char n) = '=') := by
  decide

theorem fromUrl_toUrl_b64Char : ∀ n : Nat, n < 64 →
    fromUrlChar (toUrlChar (b64Char n)) = b64Char n := by
  decide

theorem atob_btoa (bs : List Nat) (h : ∀ b ∈ bs, b < 256) :
    atobChars (btoaBytes bs) = some bs := by
  induction bs using btoaBytes.induct with
  | case1 => rfl
  | case2 a =>
    have ha : a < 256 := h a (by simp)
    rw [btoaBytes]
    simp only [atobChars]
    rw [b64Index_b64Char _ (by omega), b64Index_b64Char _ (by omega)]
    dsimp only
    rw [if_pos trivial, if_pos ⟨trivial, trivial⟩]
    have he : a / 4 * 4 + a % 4 * 16 / 16 = a := by omega
    rw [he]
  | case3 a b =>
    have ha : a < 256 := h a (by simp)
    have hb : b < 256 := h b (by simp)
    rw [btoaBytes]
    simp only [atobChars]
    rw [b64Index_b64Char _ (by omega), b64Index_b64Char _ (by omega)]
    dsimp only
    rw [if_neg (b64Char_ne_pad _ (by omega))]
    rw [b64Index_b64Char _ (by omega)]
    dsimp only
    rw [if_pos trivial, if_pos trivial]
    have he1 : a / 4 * 4 + (a % 4 * 16 + b / 16) / 16 = a := by omega
    have he2 : (a % 4 * 16 + b / 16) % 16 * 16 + b % 16 * 4 / 4 = b := by omega
    rw [he1, he2]
  | case4 a b c rest ih =>
    have ha : a < 256 := h a (by simp)
    have hb : b < 256 := h b (by simp)
    have hc : c < 256 := h c (by simp)
    have hrest : ∀ x ∈ rest, x < 256 := by
      intro x hx
      exact h x (by simp [hx])
    rw [btoaBytes]
    simp only [atobChars]
    rw [b64Index_b64Char _ (by omega), b64Index_b64Char _ (by omega)]
    dsimp only
    rw [if_neg (b64Char_ne_pad _ (by omega))]
    rw [b64Index_b64Char _ (by omega)]
    dsimp only
    rw [if_neg (b64Char_ne_pad _ (by omega))]
    rw [b64Index_b64Char _ (by omega)]
    dsimp only
    rw [ih hrest]
    have he1 : a / 4 * 4 + (a % 4 * 16 + b / 16) / 16 = a := by omega
    have he2 : (a % 4 * 16 + b / 16) % 16 * 16 + (b % 16 * 4 + c / 64) / 4 = b := by
      omega
    have he3 : (b % 16 * 4 + c / 64) % 4 * 64 + c % 64 = c := by omega
    rw [he1, he2, he3]
    rfl

theorem btoa_structure (bs : List Nat) (h : ∀ b ∈ bs, b < 256) :
    ∃ body k, btoaBytes bs = body ++ List.replicate k '='
      ∧ k ≤ 2 ∧ (body.length + k) % 4 = 0
      ∧ ∀ c ∈ body, ∃ n, n < 64 ∧ c = b64Char n := by
  induction bs using btoaBytes.induct with
  | case1 => exact ⟨[], 0, rfl, by omega, by simp, by simp⟩
  | case2 a =>
    have ha : a < 256 := h a (by simp)
    refine ⟨[b64Char (a / 4), b64Char (a % 4 * 16)], 2, rfl, by omega, by simp, ?_⟩
    intro c hc
    simp only [List.mem_cons, List.not_mem_nil, or_false] at hc
    rcases hc with rfl | rfl
    · exact ⟨a / 4, by omega, rfl⟩
    · exact ⟨a % 4 * 16, by omega, rfl⟩
  | case3 a b =>
    have ha : a < 256 := h a (by simp)
    have hb : b < 256 := h b (by simp)
    refine ⟨[b64Char (a / 4), b64Char (a % 4 * 16 + b / 16), b64Char (b % 16 * 4)], 1,
      rfl, by omega, by simp, ?_⟩
    intro c hc
    simp only [List.mem_cons, List.not_mem_nil, or_false] at hc
    rcases hc with rfl | rfl | rfl
    · exact ⟨a / 4, by omega, rfl⟩
    · exact ⟨a % 4 * 16 + b / 16, by omega, rfl⟩
    · exact ⟨b % 16 * 4, by omega, rfl⟩
  | case4 a b c rest ih =>
    have ha : a < 256 := h a (by simp)
    have hb : b < 256 := h b (by simp)
    have hc : c < 256 := h c (by simp)
    obtain ⟨body, k, hB, hk, hmod, hmem⟩ := ih (fun x hx => h x (by simp [hx]))
    refine ⟨b64Char (a / 4) :: b64Char (a % 4 * 16 + b / 16)
      :: b64Char (b % 16 * 4 + c / 64) :: b64Char (c % 64) :: body, k, ?_, hk, ?_, ?_⟩
    · rw [btoaBytes, hB]
      rfl
    · simp only [List.length_cons]
      omega
    · intro x hx
      simp only [List.mem_cons] at hx
      rcases hx with rfl | rfl | rfl | rfl | hx
      · exact ⟨a / 4, by omega, rfl⟩
      · exact ⟨a % 4 * 16 + b / 16, by omega, rfl⟩
      · exact ⟨b % 16 * 4 + c / 64, by omega, rfl⟩
      · exact ⟨c % 64, by omega, rfl⟩
      · exact hmem x hx

theorem dropWhile_eq_self_of_all {p : Char → Bool} {l : List Char}
    (h : ∀ c ∈ l, p c = false) : l.dropWhile p = l := by
  cases l with
  | nil => rfl
  | cons a t =>
    rw [List.dropWhile_cons, if_neg]
    rw [h a (List.mem_cons.mpr (Or.inl rfl))]
    simp

theorem stripTrailingEq_spec (l : List Char) (k : Nat)
    (h : ∀ c ∈ l, ¬(c = '=')) :
    stripTrailingEq (l ++ List.replicate k '=') = l := by
  unfold stripTrailingEq
  rw [List.reverse_append, List.reverse_replicate]
  have h1 : ∀ j : Nat,
      List.dropWhile (fun c => c == '=') (List.replicate j '=' ++ l.reverse)
        = List.dropWhile (fun c => c == '=') l.reverse := by
    intro j
    induction j with
    | zero => simp
    | succ m ih =>
      rw [List.replicate_succ, List.cons_append, List.dropWhile_cons,
        if_pos (by simp)]
      exact ih
  rw [h1]
  rw [dropWhile_eq_self_of_all (by
    intro c hcm
    have := h c (List.mem_reverse.mp hcm)
    simpa using this)]
  exact List.reverse_reverse l

/-- C10: decoding inverts encoding: for every string, the URL-safe
base64 of its UTF-8 bytes — `+`/`/` remapped and padding stripped —
decodes back to the original string (padding restored, characters
unmapped, `atob` and the UTF-8 view inverted). -/
theorem base64UrlDecode_encode (s : String) :
    base64UrlDecode (base64UrlEncode s) = some s := by
  obtain ⟨body, k, hB, hk, hmod, hmem⟩ := btoa_structure (strUtf8 s) (strUtf8_lt s)
  have hmap : (btoaBytes (strUtf8 s)).map toUrlChar
      = body.map toUrlChar ++ List.replicate k '=' := by
    rw [hB, List.map_append, List.map_replicate]
    rfl
  have hstrip : stripTrailingEq ((btoaBytes (strUtf8 s)).map toUrlChar)
      = body.map toUrlChar := by
    rw [hmap]
    refine stripTrailingEq_spec _ k ?_
    intro c hcm
    obtain ⟨c0, hc0, rfl⟩ := List.mem_map.mp hcm
    obtain ⟨n, hn, rfl⟩ := hmem c0 hc0
    exact toUrlChar_b64Char_ne_pad n hn
  have hdata : (base64UrlEncode s).data = body.map toUrlChar := by
    unfold base64UrlEncode
    rw [hstrip]
  have hback : (body.map toUrlChar).map fromUrlChar = body := by
    rw [List.map_map]
    have hcg : ∀ c ∈ body, (fromUrlChar ∘ toUrlChar) c = id c := by
      intro c hcm
      obtain ⟨n, hn, rfl⟩ := hmem c hcm
      exact fromUrl_toUrl_b64Char n hn
    rw [List.map_congr_left hcg, List.map_id]
  have hlen : 3 - ((body.map toUrlChar).length + 3) % 4 = k := by
    rw [List.length_map]
    omega
  unfold base64UrlDecode
  rw [hdata, hback, hlen, ← hB, atob_btoa _ (strUtf8_lt s)]
  dsimp only
  rw [utf8Decode_strUtf8]
  dsimp only
  have hcs : (s.data.map Char.toNat).map Char.ofNat = s.data := by
    rw [List.map_map]
    have hcg : ∀ c ∈ s.data, (Char.ofNat ∘ Char.toNat) c = id c := by
      intro c _
      exact Char.ofNat_toNat c
    rw [List.map_congr_left hcg, List.map_id]
  rw [hcs]
